import Mathlib

/-!
# Verification of the cicode-vscode-extension source indexer core

A shallow embedding, in Lean 4, of the span utilities, lexical scanners and
indexer orchestration of the `cicode-vscode-extension` repository
(`src/shared/textUtils.ts`, `src/shared/parseHelpers.ts`,
`src/core/indexer/indexer.ts`), together with theorems settling the
specification's claims about them.

Texts are modelled as `List Char`, character offsets as `Nat`, JavaScript
`Map`s (which preserve insertion order) as association lists with unique keys,
and JavaScript arrays as Lean lists.  Imperative `while` loops over a text are
modelled as structurally recursive functions on an explicit `fuel` argument
whose initial value bounds the number of iterations (each iteration advances
the scan position by at least one, so a fuel of the scan bound is always
sufficient; the fuel-exhausted branch coincides with the loop-exit branch).
-/

namespace Cicode

/-- JavaScript's `/\s/.test(ch)` on the ASCII range (space, tab, newline,
carriage return, vertical tab, form feed).  Both scanners of
`parseHelpers.ts` use the same class, so equivalence results are insensitive
to the non-ASCII part of the class, which we do not model. -/
def jsIsSpace (c : Char) : Bool :=
  c = ' ' || c = '\t' || c = '\n' || c = '\r' || c = '\x0b' || c = '\x0c'

/-- JavaScript's `/\w/` class `[A-Za-z0-9_]` (JS `\w` is ASCII-only). -/
def jsIsWordChar (c : Char) : Bool :=
  ('A' ≤ c && c ≤ 'Z') || ('a' ≤ c && c ≤ 'z') || ('0' ≤ c && c ≤ '9') || c = '_'

/-- `text[i]` of JavaScript.  Out-of-range access yields `undefined`, which
every character test of the scanners treats like an ordinary non-space,
non-special token character; we model it by the word character `'u'`. -/
def charAt (text : List Char) (i : Nat) : Char :=
  text.getD i 'u'

/-- JavaScript `String.prototype.toLowerCase()` on the ASCII range,
modelled character-wise (kernel-computable). -/
def jsToLower (s : String) : String := String.mk (s.data.map Char.toLower)

/-- JavaScript `String.prototype.toUpperCase()` on the ASCII range,
modelled character-wise (kernel-computable). -/
def jsToUpper (s : String) : String := String.mk (s.data.map Char.toUpper)

/-! ## `textUtils.ts`: `mergeSpans` and `inSpan` -/

/-- One step of the stable insertion sort modelling
`spans.sort((a, b) => a[0] - b[0])`: the element is placed before the first
element with a strictly larger or equal... (it is placed before the first
element whose start is ≥ only when strictly required; ties keep the original
relative order, as JavaScript's sort is stable). -/
def insSpan (x : Nat × Nat) : List (Nat × Nat) → List (Nat × Nat)
  | [] => [x]
  | y :: ys => if x.1 ≤ y.1 then x :: y :: ys else y :: insSpan x ys

/-- `spans.sort((a, b) => a[0] - b[0])` — a stable sort by span start.
JavaScript's `Array.prototype.sort` is stable, and a stable sort by a fixed
key is unique, so any stable sorting algorithm is a faithful model. -/
def sortSpans (spans : List (Nat × Nat)) : List (Nat × Nat) :=
  spans.foldr insSpan []

/-- The body of `mergeSpans`'s fold over the sorted spans.  The source pushes
onto an output array and mutates its last element
(`out[out.length - 1][1] = Math.max(...)`); we model the same computation by
keeping the current last span `cur` as an accumulator and emitting it the
moment the next span cannot merge with it (`s > cur.2`). -/
def mergeRun (cur : Nat × Nat) : List (Nat × Nat) → List (Nat × Nat)
  | [] => [cur]
  | (s, e) :: rest =>
    if cur.2 < s then cur :: mergeRun (s, e) rest
    else mergeRun (cur.1, max cur.2 e) rest

/-- `mergeSpans` of `textUtils.ts` (lines 6–17): sort by start, then fold
overlapping or adjacent spans into one covering span. -/
def mergeSpans (spans : List (Nat × Nat)) : List (Nat × Nat) :=
  match sortSpans spans with
  | [] => []
  | x :: xs => mergeRun x xs

/-- `inSpan` of `textUtils.ts` (lines 19–25): linear scan with early exit
once a span's start exceeds `pos`. -/
def inSpan (pos : Nat) (spans : List (Nat × Nat)) : Bool :=
  match spans with
  | [] => false
  | (s, e) :: rest =>
    if s ≤ pos && pos < e then true
    else if pos < s then false
    else inSpan pos rest

/-! ## `parseHelpers.ts`: `spanLowerBound` and `advancePastIgnored` -/

/-- The `while (lo < hi)` loop of `spanLowerBound`.  `(lo + hi) >>> 1` is
`(lo + hi) / 2` (the offsets involved are far below `2^32`).  Out-of-range
indexing cannot occur while `lo < hi ≤ spans.length`; `getD` makes the model
total. -/
def slbGo (spans : List (Nat × Nat)) (pos : Nat) : Nat → Nat → Nat → Nat
  | 0, lo, _ => lo
  | fuel + 1, lo, hi =>
    if lo < hi then
      let mid := (lo + hi) / 2
      if (spans.getD mid (0, 0)).2 ≤ pos then slbGo spans pos fuel (mid + 1) hi
      else slbGo spans pos fuel lo mid
    else lo

/-- `spanLowerBound` of `parseHelpers.ts` (lines 3–12): binary search for the
first index whose span end exceeds `pos`. -/
def spanLowerBound (spans : List (Nat × Nat)) (pos : Nat) : Nat :=
  slbGo spans pos spans.length 0 spans.length

/-- `advancePastIgnored` of `parseHelpers.ts` (lines 14–25). -/
def advancePastIgnored (pos : Nat) (spans : List (Nat × Nat)) : Nat :=
  if spans.isEmpty then pos
  else
    let idx := spanLowerBound spans pos
    if idx < spans.length then
      let sp := spans.getD idx (0, 0)
      if sp.1 ≤ pos && pos < sp.2 then sp.2 else pos
    else pos

/-! ## `findMatchingParen` (`parseHelpers.ts` lines 27–92) -/

/-- The scan loop of `findMatchingParen`.  State: position `i`, string state
`inDQ`/`inSQ`/`esc`, paren `depth` (an `Int`, as in the source).  The
fuel-exhausted case coincides with the `i ≥ text.length` loop exit returning
the `-1` sentinel; the wrapper's fuel always suffices since every iteration
advances `i` by at least one. -/
def fmpGo (text : List Char) (ignore : List (Nat × Nat)) :
    Nat → Nat → Bool → Bool → Bool → Int → Int
  | 0, _, _, _, _, _ => -1
  | fuel + 1, i, inDQ, inSQ, esc, depth =>
    if i < text.length then
      let jumped := advancePastIgnored i ignore
      if jumped ≠ i then fmpGo text ignore fuel jumped inDQ inSQ esc depth
      else
        let ch := charAt text i
        if inDQ || inSQ then
          if esc then fmpGo text ignore fuel (i + 1) inDQ inSQ false depth
          else if ch = '^' then fmpGo text ignore fuel (i + 1) inDQ inSQ true depth
          else if inDQ && ch = '"' then
            fmpGo text ignore fuel (i + 1) false inSQ esc depth
          else if inSQ && ch = '\'' then
            fmpGo text ignore fuel (i + 1) inDQ false esc depth
          else fmpGo text ignore fuel (i + 1) inDQ inSQ esc depth
        else if ch = '"' then fmpGo text ignore fuel (i + 1) true inSQ esc depth
        else if ch = '\'' then fmpGo text ignore fuel (i + 1) inDQ true esc depth
        else if ch = '(' then fmpGo text ignore fuel (i + 1) inDQ inSQ esc (depth + 1)
        else if ch = ')' then
          if depth - 1 = 0 then Int.ofNat i
          else fmpGo text ignore fuel (i + 1) inDQ inSQ esc (depth - 1)
        else fmpGo text ignore fuel (i + 1) inDQ inSQ esc depth
    else -1

/-- `findMatchingParen` of `parseHelpers.ts` (lines 27–92): scan forward from
`openPos + 1` with depth seeded at 1; return the offset of the close paren
that brings the depth to 0, or the sentinel `-1`. -/
def findMatchingParen (text : List Char) (openPos : Nat)
    (ignore : List (Nat × Nat)) : Int :=
  fmpGo text ignore text.length (openPos + 1) false false false 1

/-- Specification-side companion of `findMatchingParen`, following the
spec's words "the offset of the corresponding closing parenthesis": the list
of positions of active (non-ignored, outside-string) close parens at which
the running depth reaches zero, the scan continuing to the end of the text
instead of returning.  The matching close of the open paren is the first
such position. -/
def closeHits (text : List Char) (ignore : List (Nat × Nat)) :
    Nat → Nat → Bool → Bool → Bool → Int → List Nat
  | 0, _, _, _, _, _ => []
  | fuel + 1, i, inDQ, inSQ, esc, depth =>
    if i < text.length then
      let jumped := advancePastIgnored i ignore
      if jumped ≠ i then closeHits text ignore fuel jumped inDQ inSQ esc depth
      else
        let ch := charAt text i
        if inDQ || inSQ then
          if esc then closeHits text ignore fuel (i + 1) inDQ inSQ false depth
          else if ch = '^' then closeHits text ignore fuel (i + 1) inDQ inSQ true depth
          else if inDQ && ch = '"' then
            closeHits text ignore fuel (i + 1) false inSQ esc depth
          else if inSQ && ch = '\'' then
            closeHits text ignore fuel (i + 1) inDQ false esc depth
          else closeHits text ignore fuel (i + 1) inDQ inSQ esc depth
        else if ch = '"' then closeHits text ignore fuel (i + 1) true inSQ esc depth
        else if ch = '\'' then closeHits text ignore fuel (i + 1) inDQ true esc depth
        else if ch = '(' then
          closeHits text ignore fuel (i + 1) inDQ inSQ esc (depth + 1)
        else if ch = ')' then
          if depth - 1 = 0 then
            i :: closeHits text ignore fuel (i + 1) inDQ inSQ esc (depth - 1)
          else closeHits text ignore fuel (i + 1) inDQ inSQ esc (depth - 1)
        else closeHits text ignore fuel (i + 1) inDQ inSQ esc depth
    else []

/-! ## `countArgsTopLevel` (`parseHelpers.ts` lines 94–180) -/

/-- The scan loop of `countArgsTopLevel`.  State: position `i`, paren
`depth` (only ever decremented when positive, so `Nat`), string state
`inDQ`/`inSQ`/`esc` (the escape character inside strings is `'^'`),
`sawToken`, accumulated `count`.  The fuel-exhausted case performs the same
final `flush()` as the loop exit. -/
def countGo (text : List Char) (ignore : List (Nat × Nat)) (endAbs : Nat) :
    Nat → Nat → Nat → Bool → Bool → Bool → Bool → Nat → Nat
  | 0, _, _, _, _, _, sawToken, count => count + (if sawToken then 1 else 0)
  | fuel + 1, i, depth, inDQ, inSQ, esc, sawToken, count =>
    if i < endAbs then
      let jumped := advancePastIgnored i ignore
      if jumped ≠ i then
        countGo text ignore endAbs fuel jumped depth inDQ inSQ esc true count
      else
        let ch := charAt text i
        if inDQ || inSQ then
          if esc then
            countGo text ignore endAbs fuel (i + 1) depth inDQ inSQ false sawToken count
          else if ch = '^' then
            countGo text ignore endAbs fuel (i + 1) depth inDQ inSQ true sawToken count
          else if inDQ && ch = '"' then
            countGo text ignore endAbs fuel (i + 1) depth false inSQ esc sawToken count
          else if inSQ && ch = '\'' then
            countGo text ignore endAbs fuel (i + 1) depth inDQ false esc sawToken count
          else countGo text ignore endAbs fuel (i + 1) depth inDQ inSQ esc true count
        else if ch = '"' then
          countGo text ignore endAbs fuel (i + 1) depth true inSQ esc true count
        else if ch = '\'' then
          countGo text ignore endAbs fuel (i + 1) depth inDQ true esc true count
        else if ch = '(' then
          countGo text ignore endAbs fuel (i + 1) (depth + 1) inDQ inSQ esc true count
        else if ch = ')' then
          countGo text ignore endAbs fuel (i + 1)
            (if 0 < depth then depth - 1 else depth) inDQ inSQ esc true count
        else if ch = ',' && depth = 0 then
          countGo text ignore endAbs fuel (i + 1) depth inDQ inSQ esc false
            (count + (if sawToken then 1 else 0))
        else
          countGo text ignore endAbs fuel (i + 1) depth inDQ inSQ esc
            (if jsIsSpace ch then sawToken else true) count
    else count + (if sawToken then 1 else 0)

/-- `countArgsTopLevel` of `parseHelpers.ts` (lines 94–180). -/
def countArgsTopLevel (text : List Char) (startAbs endAbs : Nat)
    (ignore : List (Nat × Nat)) : Nat :=
  countGo text ignore endAbs (endAbs + 1) startAbs 0 false false false false 0

/-! ## `sliceTopLevelArgSpans` (`parseHelpers.ts` lines 182–269) -/

/-- `text.slice(a, b).trim().length > 0`: some character of the (bounds
clamped) slice is not whitespace. -/
def hasNonWsBetween (text : List Char) (a b : Nat) : Bool :=
  ((text.drop a).take (b - a)).any (fun c => !jsIsSpace c)

/-- The `pushTok(endPos)` helper of `sliceTopLevelArgSpans`: record the
pending token run `[tokStart, endPos)` if its trimmed text is non-empty.
The JS sentinel `tokStart = -1` is modelled by `Option Nat`. -/
def pushTok (text : List Char) (out : List (Nat × Nat)) (tokStart : Option Nat)
    (endPos : Nat) : List (Nat × Nat) :=
  match tokStart with
  | none => out
  | some t => if hasNonWsBetween text t endPos then out ++ [(t, endPos)] else out

/-- The scan loop of `sliceTopLevelArgSpans`.  Same structure as `countGo`,
except that the escape character inside strings is `'\'` (not `'^'` — the
source functions genuinely differ here), and a pending token start offset is
tracked instead of a `sawToken` flag. -/
def sliceGo (text : List Char) (ignore : List (Nat × Nat)) (endAbs : Nat) :
    Nat → Nat → Nat → Bool → Bool → Bool → Option Nat → List (Nat × Nat) →
    List (Nat × Nat)
  | 0, _, _, _, _, _, tokStart, out => pushTok text out tokStart endAbs
  | fuel + 1, i, depth, inDQ, inSQ, esc, tokStart, out =>
    if i < endAbs then
      let jumped := advancePastIgnored i ignore
      if jumped ≠ i then
        sliceGo text ignore endAbs fuel jumped depth inDQ inSQ esc
          (if tokStart.isNone then some i else tokStart) out
      else
        let ch := charAt text i
        if inDQ || inSQ then
          if esc then
            sliceGo text ignore endAbs fuel (i + 1) depth inDQ inSQ false tokStart out
          else if ch = '\\' then
            sliceGo text ignore endAbs fuel (i + 1) depth inDQ inSQ true tokStart out
          else if inDQ && ch = '"' then
            sliceGo text ignore endAbs fuel (i + 1) depth false inSQ esc tokStart out
          else if inSQ && ch = '\'' then
            sliceGo text ignore endAbs fuel (i + 1) depth inDQ false esc tokStart out
          else
            sliceGo text ignore endAbs fuel (i + 1) depth inDQ inSQ esc
              (if tokStart.isNone then some i else tokStart) out
        else if ch = '"' then
          sliceGo text ignore endAbs fuel (i + 1) depth true inSQ esc
            (if tokStart.isNone then some i else tokStart) out
        else if ch = '\'' then
          sliceGo text ignore endAbs fuel (i + 1) depth inDQ true esc
            (if tokStart.isNone then some i else tokStart) out
        else if ch = '(' then
          sliceGo text ignore endAbs fuel (i + 1) (depth + 1) inDQ inSQ esc
            (if tokStart.isNone then some i else tokStart) out
        else if ch = ')' then
          sliceGo text ignore endAbs fuel (i + 1)
            (if 0 < depth then depth - 1 else depth) inDQ inSQ esc
            (if tokStart.isNone then some i else tokStart) out
        else if ch = ',' && depth = 0 then
          sliceGo text ignore endAbs fuel (i + 1) depth inDQ inSQ esc none
            (pushTok text out tokStart i)
        else
          sliceGo text ignore endAbs fuel (i + 1) depth inDQ inSQ esc
            (if !jsIsSpace ch && tokStart.isNone then some i else tokStart) out
    else pushTok text out tokStart endAbs

/-- `sliceTopLevelArgSpans` of `parseHelpers.ts` (lines 182–269), returning
the `[start, end)` offsets of each recorded token run. -/
def sliceTopLevelArgSpans (text : List Char) (argsStartAbs argsEndAbs : Nat)
    (ignore : List (Nat × Nat)) : List (Nat × Nat) :=
  sliceGo text ignore argsEndAbs (argsEndAbs + 1) argsStartAbs 0 false false false
    none []

/-! ## Function body extent scan
(`indexer.ts`, `_extractFunctionsWithRanges` lines 1392–1440) -/

/-- The block keywords of the body-extent token regex
`/\b(if|for|while|repeat|try|select|end)\b/gi`. -/
inductive Kw where
  | kIf | kFor | kWhile | kRepeat | kTry | kSelect | kEnd
deriving DecidableEq, Repr

/-- The (lower-case) characters of a block keyword. -/
def Kw.chars : Kw → List Char
  | .kIf => ['i', 'f']
  | .kFor => ['f', 'o', 'r']
  | .kWhile => ['w', 'h', 'i', 'l', 'e']
  | .kRepeat => ['r', 'e', 'p', 'e', 'a', 't']
  | .kTry => ['t', 'r', 'y']
  | .kSelect => ['s', 'e', 'l', 'e', 'c', 't']
  | .kEnd => ['e', 'n', 'd']

/-- Case-insensitive match of keyword `k` at position `p` with a word
boundary on each side (`\b…\b`): the previous character (if any) and the
following character (if any) are not `\w` characters. -/
def kwMatchesAt (text : List Char) (p : Nat) (k : Kw) : Bool :=
  (decide (p = 0) || !jsIsWordChar (charAt text (p - 1))) &&
  (((text.drop p).take k.chars.length).map Char.toLower == k.chars) &&
  (decide (text.length ≤ p + k.chars.length) ||
    !jsIsWordChar (charAt text (p + k.chars.length)))

/-- The keyword (if any) matched by the token regex at position `p`.  The
alternation order is the regex's; no two keywords share a first letter, so
at most one alternative can match at a given position. -/
def kwAt (text : List Char) (p : Nat) : Option Kw :=
  if kwMatchesAt text p .kIf then some .kIf
  else if kwMatchesAt text p .kFor then some .kFor
  else if kwMatchesAt text p .kWhile then some .kWhile
  else if kwMatchesAt text p .kRepeat then some .kRepeat
  else if kwMatchesAt text p .kTry then some .kTry
  else if kwMatchesAt text p .kSelect then some .kSelect
  else if kwMatchesAt text p .kEnd then some .kEnd
  else none

/-- The body-extent token loop (`indexer.ts` lines 1405–1426): repeated
`tokenRe.exec` is modelled by advancing `p` to the leftmost keyword match at
or after the cursor (`lastIndex` moves past each match).  A match at or past
`maxSearchEnd` stops the scan (`break`), matches inside ignore spans are
skipped (`continue`), `end` decrements the nest counter — ending the body at
`t.index + 3` when it reaches zero — and every other keyword increments it.
If no closer is found the body extends to `maxSearchEnd`. -/
def bodyScanGo (text : List Char) (ignoreCS : List (Nat × Nat))
    (maxSearchEnd : Nat) : Nat → Nat → Int → Nat
  | 0, _, _ => maxSearchEnd
  | fuel + 1, p, depth =>
    if p < text.length then
      match kwAt text p with
      | none => bodyScanGo text ignoreCS maxSearchEnd fuel (p + 1) depth
      | some k =>
        if maxSearchEnd ≤ p then maxSearchEnd
        else if inSpan p ignoreCS then
          bodyScanGo text ignoreCS maxSearchEnd fuel (p + k.chars.length) depth
        else if k = .kEnd then
          if depth - 1 = 0 then p + 3
          else bodyScanGo text ignoreCS maxSearchEnd fuel (p + k.chars.length)
            (depth - 1)
        else bodyScanGo text ignoreCS maxSearchEnd fuel (p + k.chars.length)
          (depth + 1)
    else maxSearchEnd

/-- The computed body end offset for one extracted function header
(`indexer.ts` lines 1395–1437): nest counter seeded at 1, scan starting at
`bodyStart` (the header's end), bounded by the next header's start offset
`maxSearchEnd` (or the text length for the last function). -/
def functionBodyEnd (text : List Char) (ignoreCS : List (Nat × Nat))
    (bodyStart maxSearchEnd : Nat) : Nat :=
  bodyScanGo text ignoreCS maxSearchEnd (text.length + 1) bodyStart 1

/-! ## Shape predicates for span lists -/

/-- Starts are sorted ascending (non-strictly; ties are allowed). -/
def startsSorted (spans : List (Nat × Nat)) : Prop :=
  List.Chain' (fun a b : Nat × Nat => a.1 ≤ b.1) spans

/-- Adjacent spans neither overlap nor touch: each span ends strictly before
the next begins.  This is exactly the invariant `mergeSpans` establishes
(`push` only when `s > out[out.length - 1][1]`). -/
def spansSeparated (spans : List (Nat × Nat)) : Prop :=
  List.Chain' (fun a b : Nat × Nat => a.2 < b.1) spans

/-- A merged span list as produced by `mergeSpans` from genuine (non-empty)
intervals: every span is proper (`s < e`), starts are sorted and the spans
are pairwise separated. -/
def mergedSpans (spans : List (Nat × Nat)) : Prop :=
  (∀ sp ∈ spans, sp.1 < sp.2) ∧ startsSorted spans ∧ spansSeparated spans

instance : DecidablePred mergedSpans := fun l =>
  inferInstanceAs (Decidable ((∀ sp ∈ l, sp.1 < sp.2) ∧
    List.Chain' (fun a b : Nat × Nat => a.1 ≤ b.1) l ∧
    List.Chain' (fun a b : Nat × Nat => a.2 < b.1) l))

instance : IsTrans (Nat × Nat) (fun a b : Nat × Nat => a.1 ≤ b.1) :=
  ⟨fun _ _ _ hab hbc => le_trans hab hbc⟩

/-- The state relation between the two scanners: the paren/string state
agrees, the escape flag is off on both sides, and `sawToken` is set exactly
when a token run is pending whose start offset is a real non-whitespace
character strictly before the current position. -/
def csRel (text : List Char) (endAbs i : Nat) (dq sq saw : Bool)
    (tok : Option Nat) : Prop :=
  ((saw = false ∧ tok = none) ∨
    (saw = true ∧ ∃ t, tok = some t ∧ t < i ∧ t < endAbs ∧
      jsIsSpace (charAt text t) = false)) ∧
  ((dq || sq) = true → saw = true)


/-! ## The indexer state (`indexer.ts`, `class Indexer`) -/

/-- A function-table record (`FunctionInfo`).  The documentation-text fields
(`doc`, `returns`, `paramDocs`), which only feed hover/completion display
strings and are touched by no claim, are not modelled. -/
structure FunctionInfo where
  name : String
  returnType : String
  params : List String
  location : Option Nat
  file : Option String
  bodyRange : Option (Nat × Nat)
deriving DecidableEq, Repr

/-- A variable-table entry (`VariableEntry`).  `location` is the declaration
offset (a `vscode.Location` in the source); `range` is the enclosing body
range for locals. -/
structure VariableEntry where
  name : String
  type : String
  scopeType : String
  scopeId : String
  location : Nat
  file : String
  range : Option (Nat × Nat)
  isParam : Bool
deriving DecidableEq, Repr

/-- A per-file function range record (`FunctionRange`): header start offset,
name offset, header end (= body start) and body end offsets, raw parameter
text and inferred return type. -/
structure FunctionRange where
  name : String
  returnType : String
  paramsRaw : String
  headerIndex : Nat
  nameOffset : Nat
  headerEndPos : Nat
  endOffset : Nat
deriving DecidableEq, Repr

/-- JavaScript `Map.get` on an insertion-ordered association list. -/
def mapGet {α : Type} (m : List (String × α)) (k : String) : Option α :=
  (m.find? (fun p => p.1 = k)).map (·.2)

/-- JavaScript `Map.set`: update the existing binding in place, else append
a new one (insertion order preserved). -/
def mapSet {α : Type} (m : List (String × α)) (k : String) (v : α) :
    List (String × α) :=
  if m.any (fun p => p.1 = k) then
    m.map (fun p => if p.1 = k then (k, v) else p)
  else m ++ [(k, v)]

/-- JavaScript `Map.delete`. -/
def mapDelete {α : Type} (m : List (String × α)) (k : String) :
    List (String × α) :=
  m.filter (fun p => ¬ p.1 = k)

/-- The six tables owned by the `Indexer`: the four public tables and the
two reverse indexes used for purge.  JS `Map`s become association lists,
JS `Set`s become duplicate-free lists. -/
structure IndexerState where
  functionCache : List (String × FunctionInfo)
  variableCache : List (String × List VariableEntry)
  functionRangesByFile : List (String × List FunctionRange)
  ignoreSpansByFile : List (String × List (Nat × Nat))
  functionKeysByFile : List (String × List String)
  variableKeysByFile : List (String × List String)
deriving DecidableEq, Repr

/-- The freshly constructed indexer: all tables empty. -/
def emptyIndexer : IndexerState := ⟨[], [], [], [], [], []⟩

/-- `Indexer.localScopeId` (lines 1147–1149). -/
def localScopeId (file funcName : String) : String :=
  "local:" ++ file ++ "::" ++ funcName

/-- `Indexer._addVar` (lines 1208–1218): push the entry onto the list for
the lowercased name (creating the list if needed) and record the key in the
reverse-index set of the entry's file. -/
def addVar (s : IndexerState) (name : String) (entry : VariableEntry) :
    IndexerState :=
  let k := jsToLower name
  let cache := match mapGet s.variableCache k with
    | none => mapSet s.variableCache k [entry]
    | some arr => mapSet s.variableCache k (arr ++ [entry])
  let revIdx := match mapGet s.variableKeysByFile entry.file with
    | none => mapSet s.variableKeysByFile entry.file [k]
    | some ks =>
        mapSet s.variableKeysByFile entry.file (if k ∈ ks then ks else ks ++ [k])
  { s with variableCache := cache, variableKeysByFile := revIdx }

/-- One iteration of `_purgeFile`'s variable loop (lines 1082–1089): filter
the file's entries out of the list under one key, deleting the key when
nothing remains. -/
def purgeVarStep (file : String) (m : List (String × List VariableEntry))
    (k : String) : List (String × List VariableEntry) :=
  match mapGet m k with
  | some arr =>
      let filtered := arr.filter (fun (e : VariableEntry) => e.file ≠ file)
      if filtered.isEmpty then mapDelete m k else mapSet m k filtered
  | none => m

/-- `Indexer._purgeFile` (lines 1069–1096): delete the file's function keys
from the function table (by key, via the reverse index), filter the file's
entries out of the variable table (deleting a key whose list becomes empty),
then drop the file's range list, cached ignore spans and reverse-index
sets. -/
def purgeFileModel (s : IndexerState) (file : String) : IndexerState :=
  let fcp := match mapGet s.functionKeysByFile file with
    | some keys =>
        (keys.foldl (fun m k => mapDelete m k) s.functionCache,
         mapDelete s.functionKeysByFile file)
    | none => (s.functionCache, s.functionKeysByFile)
  let vcp := match mapGet s.variableKeysByFile file with
    | some keys =>
        (keys.foldl (purgeVarStep file) s.variableCache,
         mapDelete s.variableKeysByFile file)
    | none => (s.variableCache, s.variableKeysByFile)
  { functionCache := fcp.1,
    variableCache := vcp.1,
    functionRangesByFile := mapDelete s.functionRangesByFile file,
    ignoreSpansByFile := mapDelete s.ignoreSpansByFile file,
    functionKeysByFile := fcp.2,
    variableKeysByFile := vcp.2 }

/-- A newline-free remainder, as required by `.*$` in a non-multiline,
non-dotall JavaScript regex. -/
def noNewline (cs : List Char) : Bool :=
  cs.all (fun c => !(c = '\n' || c = '\r'))

/-- Does `/\s*=.*$/` match starting exactly here: a whitespace run, then
`'='`, then a newline-free remainder reaching the end. -/
def defaultMatchFrom (cs : List Char) : Bool :=
  match cs.dropWhile (fun c => jsIsSpace c) with
  | '=' :: tl => noNewline tl
  | _ => false

/-- `raw.replace(/\s*=.*$/, "")`: remove the leftmost (hence only) match of
the default-value suffix. -/
def stripDefault (cs : List Char) : List Char :=
  match (List.range (cs.length + 1)).find? (fun i => defaultMatchFrom (cs.drop i)) with
  | some i => cs.take i
  | none => cs

/-- JavaScript `String.prototype.trim` on our whitespace class. -/
def trimL (cs : List Char) : List Char :=
  ((cs.dropWhile (fun c => jsIsSpace c)).reverse.dropWhile
    (fun c => jsIsSpace c)).reverse

/-- `trimmed.split(/\s+/)` on an already trimmed string: the maximal
non-whitespace runs, in order. -/
def splitWsGo : List Char → List Char → List (List Char)
  | [], acc => if acc.isEmpty then [] else [acc.reverse]
  | c :: tl, acc =>
    if jsIsSpace c then
      if acc.isEmpty then splitWsGo tl [] else acc.reverse :: splitWsGo tl []
    else splitWsGo tl (c :: acc)

/-- `Indexer._parseParamVariables` (lines 1443–1467): match
`/^\s*(\w+)\s+(\w+)(?:\s*=.*)?$/` (TYPE NAME with optional default); on
failure, strip any default, split on whitespace and take `TYPE NAME`,
`UNKNOWN NAME`, or nothing.  The regexes are deterministic here (maximal
munch is complete: the character classes at each boundary are disjoint), so
they are modelled by `takeWhile`/`dropWhile` scans. -/
def parseParamRegex (cs : List Char) : Option (List Char × List Char) :=
  let r1 := cs.dropWhile (fun c => jsIsSpace c)
  let w1 := r1.takeWhile jsIsWordChar
  let r2 := r1.dropWhile jsIsWordChar
  if w1.isEmpty then none
  else
    let ws2 := r2.takeWhile (fun c => jsIsSpace c)
    let r3 := r2.dropWhile (fun c => jsIsSpace c)
    if ws2.isEmpty then none
    else
      let w2 := r3.takeWhile jsIsWordChar
      let r4 := r3.dropWhile jsIsWordChar
      if w2.isEmpty then none
      else if r4.isEmpty || defaultMatchFrom r4 then some (w1, w2)
      else none

/-- The `type/name` pairs extracted from the raw parameter strings. -/
def parseParamVariables (params : List String) : List (String × String) :=
  params.flatMap (fun raw =>
    match parseParamRegex raw.toList with
    | some w => [(jsToUpper (String.mk w.1), String.mk w.2)]
    | none =>
      match splitWsGo (trimL (stripDefault raw.toList)) [] with
      | p0 :: p1 :: _ => [(jsToUpper (String.mk p0), String.mk p1)]
      | [p0] => [("UNKNOWN", String.mk p0)]
      | [] => [])

/-- JavaScript `String.prototype.split(',')` on the character list:
split at every comma; the empty string yields one empty field. -/
def splitCommaGo : List Char → List Char → List (List Char)
  | [], acc => [acc.reverse]
  | c :: tl, acc =>
    if c = ',' then acc.reverse :: splitCommaGo tl []
    else splitCommaGo tl (c :: acc)

/-- The split-and-trimmed parameter list of a function range (line 1166):
`rawParams.split(',').map(p => p.trim()).filter(p => p.length > 0)`. -/
def fnParams (f : FunctionRange) : List String :=
  ((splitCommaGo f.paramsRaw.toList []).map
    (fun cs => String.mk (trimL cs))).filter (· ≠ "")

/-- The `FunctionInfo` record `_indexFile` builds for one extracted
function (lines 1168–1177). -/
def funInfoOf (file : String) (f : FunctionRange) : FunctionInfo :=
  { name := f.name,
    returnType := if f.returnType = "" then "VOID" else f.returnType,
    params := fnParams f,
    location := some f.nameOffset,
    file := some file,
    bodyRange := some (f.headerEndPos, f.endOffset) }

/-- The local `VariableEntry` `_indexFile` builds for one parsed parameter
(lines 1187–1199). -/
def paramEntryOf (file : String) (f : FunctionRange) (v : String × String) :
    VariableEntry :=
  { name := v.2, type := v.1, scopeType := "local",
    scopeId := localScopeId file f.name, location := f.nameOffset,
    file := file, range := some (f.headerEndPos, f.endOffset),
    isParam := true }

/-- One iteration of `_indexFile`'s function loop (lines 1164–1202): set
the function record under its lowercased name, track the key in the
reverse index for the file, and register the parameters as local
variables. -/
def indexOneFunction (file : String) (st : IndexerState) (f : FunctionRange) :
    IndexerState :=
  let key := jsToLower f.name
  let st1 := { st with
    functionCache := mapSet st.functionCache key (funInfoOf file f) }
  let newKeys := match mapGet st1.functionKeysByFile file with
    | none => mapSet st1.functionKeysByFile file [key]
    | some ks => mapSet st1.functionKeysByFile file
        (if key ∈ ks then ks else ks ++ [key])
  let st2 := { st1 with functionKeysByFile := newKeys }
  (parseParamVariables (fnParams f)).foldl
    (fun (st3 : IndexerState) (v : String × String) =>
      addVar st3 v.2 (paramEntryOf file f v)) st2

/-- `Indexer._indexFile` (lines 1151–1206), parametrised by the pure
extraction results for the file's text: the cached ignore spans
(`buildIgnoreSpans(text, {includeFunctionHeaders: false})`), the extracted
function ranges (`_extractFunctionsWithRanges`), and the variable entries
produced by `_indexVariablesInText`'s declaration scan (each of which the
source constructs with `file` as its owning `file` field).  The claims
C3/C4 concern the table bookkeeping, which is modelled in full: purge the
file's prior contribution, cache the ignore spans and function ranges, set
each function's record and reverse-index key and register its parameters as
local variables, then add the scanned declarations. -/
def indexFileModel (s : IndexerState) (file : String)
    (ignoreSpans : List (Nat × Nat)) (functions : List FunctionRange)
    (declVars : List VariableEntry) : IndexerState :=
  let s1 := purgeFileModel s file
  let s2 := { s1 with
    ignoreSpansByFile := mapSet s1.ignoreSpansByFile file ignoreSpans }
  let s3 := { s2 with
    functionRangesByFile := mapSet s2.functionRangesByFile file functions }
  let s4 := functions.foldl (indexOneFunction file) s3
  declVars.foldl (fun st v => addVar st v.name v) s4

/-- `_moveFile`'s rewrite of one function record's `file` attribute. -/
def fiMove (oldPath newPath : String) (fi : FunctionInfo) : FunctionInfo :=
  if fi.file = some oldPath then { fi with file := some newPath } else fi

/-- `_moveFile`'s rewrite of one variable entry's `file` attribute. -/
def veMove (oldPath newPath : String) (e : VariableEntry) : VariableEntry :=
  if e.file = oldPath then { e with file := newPath } else e

/-- `Indexer._moveFile` (lines 1098–1144): rewrite the `file` attribute on
every contributed entry and relocate the per-file tables and reverse
indexes from `oldPath` to `newPath` (`set` then `delete`, overwriting
whatever `newPath` held). -/
def moveFileModel (s : IndexerState) (oldPath newPath : String) :
    IndexerState :=
  let fc := s.functionCache.map (fun p => (p.1, fiMove oldPath newPath p.2))
  let vc := s.variableCache.map (fun p =>
    (p.1, p.2.map (veMove oldPath newPath)))
  let fr := if (mapGet s.functionRangesByFile oldPath).isSome then
      mapDelete (mapSet s.functionRangesByFile newPath
        ((mapGet s.functionRangesByFile oldPath).getD [])) oldPath
    else s.functionRangesByFile
  let isp := if (mapGet s.ignoreSpansByFile oldPath).isSome then
      mapDelete (mapSet s.ignoreSpansByFile newPath
        ((mapGet s.ignoreSpansByFile oldPath).getD [])) oldPath
    else s.ignoreSpansByFile
  let fk := if (mapGet s.functionKeysByFile oldPath).isSome then
      mapDelete (mapSet s.functionKeysByFile newPath
        ((mapGet s.functionKeysByFile oldPath).getD [])) oldPath
    else s.functionKeysByFile
  let vk := if (mapGet s.variableKeysByFile oldPath).isSome then
      mapDelete (mapSet s.variableKeysByFile newPath
        ((mapGet s.variableKeysByFile oldPath).getD [])) oldPath
    else s.variableKeysByFile
  { functionCache := fc, variableCache := vc, functionRangesByFile := fr,
    ignoreSpansByFile := isp, functionKeysByFile := fk,
    variableKeysByFile := vk }

/-- `Indexer.buildAll` (lines 1031–1062), parametrised by the builtins table
and the discovered files with their extraction results.  The source clears
only `functionCache`, `variableCache` and `functionRangesByFile` — not
`_ignoreSpansByFile` and not the two reverse indexes — then seeds the
builtins (no location, file, or body range) and indexes each found file. -/
def buildAllModel (s : IndexerState) (builtins : List (String × FunctionInfo))
    (files : List (String × List (Nat × Nat) × List FunctionRange ×
      List VariableEntry)) : IndexerState :=
  let s1 : IndexerState :=
    { s with
      functionCache := [], variableCache := [], functionRangesByFile := [] }
  let s2 := builtins.foldl
    (fun (st : IndexerState) (kv : String × FunctionInfo) =>
      let fi := { kv.2 with location := none, file := none, bodyRange := none }
      { st with functionCache := mapSet st.functionCache kv.1 fi }) s1
  files.foldl
    (fun (st : IndexerState)
        (f : String × List (Nat × Nat) × List FunctionRange × List VariableEntry) =>
      indexFileModel st f.1 f.2.1 f.2.2.1 f.2.2.2) s2

/-- `Indexer.findEnclosingFunction` (lines 1699–1715): the first range whose
`[headerStart, bodyEnd)` interval contains the offset.  A `document` is
represented by its file path, a `position` by its offset. -/
def findEnclosingFunction (s : IndexerState) (file : String) (off : Nat) :
    Option FunctionRange :=
  let list := (mapGet s.functionRangesByFile file).getD []
  list.find? (fun f => decide (f.headerIndex ≤ off) && decide (off < f.endOffset))

/-- `Indexer.resolveVariableAt` (lines 1668–1696): look up the candidate
list under the lowercased name, then prefer a local entry whose scope id
matches the enclosing function, then a module entry for this file, then any
global entry, then the first remaining candidate. -/
def resolveVariableAt (s : IndexerState) (file : String) (off : Nat)
    (name : String) : Option VariableEntry :=
  match mapGet s.variableCache (jsToLower name) with
  | none => none
  | some candidates =>
    if candidates.isEmpty then none
    else
      let fromLocal := match findEnclosingFunction s file off with
        | some encl =>
            candidates.find? (fun (v : VariableEntry) =>
              decide (v.scopeType = "local") &&
                decide (v.scopeId = localScopeId file encl.name))
        | none => none
      match fromLocal with
      | some v => some v
      | none =>
        match candidates.find? (fun (v : VariableEntry) =>
            decide (v.scopeType = "module") && decide (v.scopeId = file)) with
        | some v => some v
        | none =>
          match candidates.find? (fun (v : VariableEntry) =>
              decide (v.scopeType = "global")) with
          | some v => some v
          | none => candidates.head?

/-- The candidate entries of the three-scope demonstration corpus: a local
`x` in function `F` of file `P`, a module `x` in `P`, and a global `x`
(declared in some file `R`). -/
def c1Cand : List VariableEntry :=
  [⟨"x", "INT", "local", localScopeId "P" "F", 20, "P", some (14, 40), false⟩,
   ⟨"x", "INT", "module", "P", 2, "P", none, false⟩,
   ⟨"x", "INT", "global", "global", 3, "R", none, false⟩]

/-- A three-scope demonstration corpus: file `P` holds a function `F` with
body range `[14, 40)` (header at 10), and `x` is declared in all three
scopes. -/
def c1DemoState : IndexerState :=
  { emptyIndexer with
    variableCache := [("x", c1Cand)],
    functionRangesByFile := [("P", [⟨"F", "INT", "", 10, 19, 14, 40⟩])] }

/-- A function named `Foo` extracted from file `A`. -/
def c3FrA : FunctionRange := ⟨"Foo", "INT", "", 0, 9, 14, 20⟩

/-- A function also named `Foo` extracted from file `B`. -/
def c3FrB : FunctionRange := ⟨"Foo", "REAL", "", 0, 9, 14, 22⟩

/-- Files `A` and `B`, both fully indexed, both defining a function `Foo`:
the key collision corpus for the purge frame property. -/
def c3State : IndexerState :=
  indexFileModel (indexFileModel emptyIndexer "A" [] [c3FrA] []) "B" []
    [c3FrB] []

/-- Files `A` (one function `Foo`) and `B` (one function `Bar`), both fully
indexed, with disjoint function keys. -/
def c3StateOk : IndexerState :=
  indexFileModel (indexFileModel emptyIndexer "A" [] [c3FrA] []) "B" []
    [⟨"Bar", "REAL", "", 0, 9, 14, 22⟩] []

/-- `buildAll` run (with no builtins and no discovered files) over an
indexer that had previously indexed file `A` with one cached ignore span:
the rebuild clears the ranges table but not the span cache. -/
def c4State : IndexerState :=
  buildAllModel (indexFileModel emptyIndexer "A" [(0, 5)] [] []) [] []

/-- A module variable `v` of file `A`, used to exercise `_indexFile`'s
declaration pass in the consistency witness. -/
def c4Var : VariableEntry := ⟨"v", "INT", "module", "A", 3, "A", none, false⟩

/-- A function `Baz` with two parameters, exercising the parameter-parsing
pass of `_indexFile`. -/
def c4Fr : FunctionRange := ⟨"Baz", "", "INT a, STRING b", 0, 9, 14, 20⟩

/-- File `A` fully indexed on a fresh indexer: one cached ignore span, one
function with parameters, one scanned module variable. -/
def c4WitState : IndexerState :=
  indexFileModel emptyIndexer "A" [(0, 5)] [c4Fr] [c4Var]

/-- The effect of the purge loop on one variable-table binding: filter out
the file's entries, `none` when nothing remains (or nothing was bound). -/
def purgeVarTransform (file : String) :
    Option (List VariableEntry) → Option (List VariableEntry)
  | none => none
  | some arr =>
    let filtered := arr.filter (fun (e : VariableEntry) => e.file ≠ file)
    if filtered.isEmpty then none else some filtered

/-- Reverse-index coverage of the function table: every function record
owned by a file has its key in that file's reverse-index set.  This is the
property `_purgeFile` relies on for completeness. -/
def funCoverage (s : IndexerState) : Prop :=
  ∀ k fi, mapGet s.functionCache k = some fi →
    ∀ f, fi.file = some f → k ∈ (mapGet s.functionKeysByFile f).getD []

/-- Reverse-index coverage of the variable table. -/
def varCoverage (s : IndexerState) : Prop :=
  ∀ k arr, mapGet s.variableCache k = some arr →
    ∀ e ∈ arr, k ∈ (mapGet s.variableKeysByFile e.file).getD []

/-- The per-file tables are populated for the same files: a file has cached
function ranges iff it has cached ignore spans. -/
def domainsAligned (s : IndexerState) : Prop :=
  ∀ f, (mapGet s.functionRangesByFile f).isSome ↔
    (mapGet s.ignoreSpansByFile f).isSome

/-- The mutual-consistency invariant the purge/index operations maintain. -/
def TablesConsistent (s : IndexerState) : Prop :=
  funCoverage s ∧ varCoverage s ∧ domainsAligned s

/-! ## Lemmas about `sortSpans` and `mergeRun` -/

theorem insSpan_mem {y x : Nat × Nat} {l : List (Nat × Nat)} :
    y ∈ insSpan x l ↔ y = x ∨ y ∈ l := by
  induction l with
  | nil => simp [insSpan]
  | cons z zs ih =>
    by_cases h : x.1 ≤ z.1
    · simp [insSpan, h]
    · simp only [insSpan, if_neg h, List.mem_cons, ih]
      tauto

theorem sortSpans_mem {y : Nat × Nat} {l : List (Nat × Nat)} :
    y ∈ sortSpans l ↔ y ∈ l := by
  induction l with
  | nil => simp [sortSpans]
  | cons x xs ih =>
    simp only [sortSpans, List.foldr_cons, insSpan_mem, List.mem_cons]
    rw [show xs.foldr insSpan [] = sortSpans xs from rfl, ih]

theorem insSpan_head? (x : Nat × Nat) (l : List (Nat × Nat)) :
    (insSpan x l).head? = some x ∨ (insSpan x l).head? = l.head? := by
  cases l with
  | nil => left; rfl
  | cons z zs =>
    rw [insSpan]
    split
    · left; rfl
    · right; rfl

theorem insSpan_sorted {x : Nat × Nat} {l : List (Nat × Nat)}
    (h : startsSorted l) : startsSorted (insSpan x l) := by
  induction l with
  | nil => simp [insSpan, startsSorted]
  | cons z zs ih =>
    rw [startsSorted] at h
    rw [startsSorted, insSpan]
    by_cases hx : x.1 ≤ z.1
    · rw [if_pos hx]
      exact List.chain'_cons.2 ⟨hx, h⟩
    · rw [if_neg hx]
      push_neg at hx
      have htail : startsSorted (insSpan x zs) := ih h.tail
      refine List.chain'_cons'.2 ⟨?_, htail⟩
      intro b hb
      rcases insSpan_head? x zs with hh | hh
      · rw [hh] at hb
        simp only [Option.mem_def, Option.some.injEq] at hb
        subst hb
        omega
      · rw [hh] at hb
        exact (List.chain'_cons'.1 h).1 b hb

theorem sortSpans_sorted (l : List (Nat × Nat)) : startsSorted (sortSpans l) := by
  induction l with
  | nil => simp [sortSpans, startsSorted]
  | cons x xs ih =>
    rw [sortSpans, List.foldr_cons]
    exact insSpan_sorted ih

theorem sortSpans_of_sorted {l : List (Nat × Nat)} (h : startsSorted l) :
    sortSpans l = l := by
  induction l with
  | nil => rfl
  | cons x xs ih =>
    rw [startsSorted] at h
    rw [sortSpans, List.foldr_cons,
      show xs.foldr insSpan [] = sortSpans xs from rfl, ih h.tail]
    cases xs with
    | nil => rfl
    | cons y ys =>
      rcases List.chain'_cons.1 h with ⟨hxy, _⟩
      simp [insSpan, hxy]

theorem mergeRun_ne_nil (cur : Nat × Nat) (l : List (Nat × Nat)) :
    mergeRun cur l ≠ [] := by
  induction l generalizing cur with
  | nil => simp [mergeRun]
  | cons sp rest ih =>
    obtain ⟨s, e⟩ := sp
    rw [mergeRun]
    split
    · simp
    · exact ih _

theorem mergeRun_head_start (cur : Nat × Nat) (l : List (Nat × Nat)) :
    ∃ e, cur.2 ≤ e ∧ (mergeRun cur l).head? = some (cur.1, e) := by
  induction l generalizing cur with
  | nil => exact ⟨cur.2, le_refl _, rfl⟩
  | cons sp rest ih =>
    obtain ⟨s, e⟩ := sp
    rw [mergeRun]
    split
    · exact ⟨cur.2, le_refl _, rfl⟩
    · obtain ⟨e', he', hh⟩ := ih (cur.1, max cur.2 e)
      exact ⟨e', le_trans (le_max_left _ _) he', hh⟩

theorem mergeRun_separated (cur : Nat × Nat) (l : List (Nat × Nat)) :
    spansSeparated (mergeRun cur l) := by
  induction l generalizing cur with
  | nil => simp [mergeRun, spansSeparated]
  | cons sp rest ih =>
    obtain ⟨s, e⟩ := sp
    rw [mergeRun]
    split
    · rename_i hlt
      rw [spansSeparated]
      obtain ⟨e', _, hh⟩ := mergeRun_head_start (s, e) rest
      cases hrun : mergeRun (s, e) rest with
      | nil => exact absurd hrun (mergeRun_ne_nil _ _)
      | cons w ws =>
        rw [hrun] at hh
        simp only [List.head?_cons, Option.some.injEq] at hh
        rw [List.chain'_cons]
        refine ⟨?_, ?_⟩
        · rw [hh]; exact hlt
        · have := ih (s, e); rw [spansSeparated, hrun] at this; exact this
    · exact ih _

theorem mergeRun_sorted {cur : Nat × Nat} {l : List (Nat × Nat)}
    (h : startsSorted (cur :: l)) : startsSorted (mergeRun cur l) := by
  induction l generalizing cur with
  | nil => simp [mergeRun, startsSorted]
  | cons sp rest ih =>
    obtain ⟨s, e⟩ := sp
    rw [startsSorted, List.chain'_cons] at h
    obtain ⟨hcs, htail⟩ := h
    rw [mergeRun]
    split
    · rw [startsSorted]
      obtain ⟨e', _, hh⟩ := mergeRun_head_start (s, e) rest
      cases hrun : mergeRun (s, e) rest with
      | nil => exact absurd hrun (mergeRun_ne_nil _ _)
      | cons w ws =>
        rw [hrun] at hh
        simp only [List.head?_cons, Option.some.injEq] at hh
        rw [List.chain'_cons]
        refine ⟨?_, ?_⟩
        · rw [hh]; exact hcs
        · have := @ih (s, e) htail
          rw [startsSorted, hrun] at this; exact this
    · refine @ih (cur.1, max cur.2 e) ?_
      rw [startsSorted]
      cases rest with
      | nil => simp
      | cons sp' rest' =>
        rw [List.chain'_cons]
        rw [List.chain'_cons] at htail
        exact ⟨le_trans hcs htail.1, htail.2⟩

theorem mergeRun_proper {cur : Nat × Nat} {l : List (Nat × Nat)}
    (hc : cur.1 < cur.2) (hl : ∀ sp ∈ l, sp.1 < sp.2) :
    ∀ sp ∈ mergeRun cur l, sp.1 < sp.2 := by
  induction l generalizing cur with
  | nil => simpa [mergeRun] using hc
  | cons sp rest ih =>
    obtain ⟨s, e⟩ := sp
    rw [mergeRun]
    split
    · intro x hx
      rcases List.mem_cons.1 hx with rfl | hx
      · exact hc
      · exact ih (hl (s, e) (List.mem_cons_self _ _))
          (fun q hq => hl q (List.mem_cons_of_mem _ hq)) x hx
    · exact ih (by simpa using Or.inl hc)
        (fun q hq => hl q (List.mem_cons_of_mem _ hq))

theorem mergeRun_of_separated {cur : Nat × Nat} {l : List (Nat × Nat)}
    (h : spansSeparated (cur :: l)) : mergeRun cur l = cur :: l := by
  induction l generalizing cur with
  | nil => rfl
  | cons sp rest ih =>
    obtain ⟨s, e⟩ := sp
    rw [spansSeparated, List.chain'_cons] at h
    rw [mergeRun, if_pos h.1, ih h.2]

/-! ## `mergeSpans` shape and idempotence (claim C8) -/

theorem mergeSpans_sorted (S : List (Nat × Nat)) : startsSorted (mergeSpans S) := by
  rw [mergeSpans]
  cases hs : sortSpans S with
  | nil => simp [startsSorted]
  | cons x xs =>
    have := sortSpans_sorted S
    rw [hs] at this
    exact mergeRun_sorted this

theorem mergeSpans_separated (S : List (Nat × Nat)) :
    spansSeparated (mergeSpans S) := by
  rw [mergeSpans]
  cases sortSpans S with
  | nil => simp [spansSeparated]
  | cons x xs => exact mergeRun_separated x xs

theorem mergeSpans_proper {S : List (Nat × Nat)} (h : ∀ sp ∈ S, sp.1 < sp.2) :
    ∀ sp ∈ mergeSpans S, sp.1 < sp.2 := by
  rw [mergeSpans]
  cases hs : sortSpans S with
  | nil => simp
  | cons x xs =>
    have hmem : ∀ sp ∈ x :: xs, sp.1 < sp.2 := by
      intro sp hsp
      exact h sp (sortSpans_mem.1 (hs ▸ hsp))
    exact mergeRun_proper (hmem x (List.mem_cons_self _ _))
      (fun q hq => hmem q (List.mem_cons_of_mem _ hq))

theorem mergeSpans_idem (S : List (Nat × Nat)) :
    mergeSpans (mergeSpans S) = mergeSpans S := by
  conv_lhs => rw [mergeSpans]
  rw [sortSpans_of_sorted (mergeSpans_sorted S)]
  cases hM : mergeSpans S with
  | nil => rfl
  | cons x xs =>
    have := mergeSpans_separated S
    rw [hM] at this
    exact mergeRun_of_separated this

/-! ## Binary-search correctness of `spanLowerBound` (claim C7) -/

theorem mergedSpans_chainD {spans : List (Nat × Nat)} (hm : mergedSpans spans)
    {i : Nat} (h : i + 1 < spans.length) :
    (spans.getD i (0, 0)).2 < (spans.getD (i + 1) (0, 0)).1 := by
  obtain ⟨-, -, hsep⟩ := hm
  rw [spansSeparated, List.chain'_iff_get] at hsep
  have := hsep i (by omega)
  rw [List.getD_eq_getElem _ _ (by omega), List.getD_eq_getElem _ _ (by omega)]
  simpa using this

theorem mergedSpans_properD {spans : List (Nat × Nat)} (hm : mergedSpans spans)
    {i : Nat} (h : i < spans.length) :
    (spans.getD i (0, 0)).1 < (spans.getD i (0, 0)).2 := by
  obtain ⟨hp, -, -⟩ := hm
  have hmem : spans.getD i (0, 0) ∈ spans := by
    rw [List.getD_eq_getElem _ _ h]
    exact List.getElem_mem h
  exact hp _ hmem

/-- In a merged span list, an earlier span's end is at most a later span's
start. -/
theorem mergedSpans_end_le_start {spans : List (Nat × Nat)} (hm : mergedSpans spans)
    {i j : Nat} (hij : i < j) (hj : j < spans.length) :
    (spans.getD i (0, 0)).2 ≤ (spans.getD j (0, 0)).1 := by
  induction j with
  | zero => omega
  | succ k ih =>
    rcases Nat.lt_succ_iff_lt_or_eq.1 hij with hik | rfl
    · have h1 := ih hik (by omega)
      have h2 := @mergedSpans_properD spans hm k (by omega)
      have h3 := @mergedSpans_chainD spans hm k hj
      omega
    · exact le_of_lt (mergedSpans_chainD hm hj)

/-- Span ends are monotone in a merged span list. -/
theorem mergedSpans_ends_mono {spans : List (Nat × Nat)} (hm : mergedSpans spans)
    {i j : Nat} (hij : i ≤ j) (hj : j < spans.length) :
    (spans.getD i (0, 0)).2 ≤ (spans.getD j (0, 0)).2 := by
  rcases Nat.lt_or_ge i j with h | h
  · have h1 := mergedSpans_end_le_start hm h hj
    have h2 := mergedSpans_properD hm hj
    omega
  · have : i = j := by omega
    subst this; exact le_refl _

theorem slbGo_spec {spans : List (Nat × Nat)} {pos : Nat}
    (hmono : ∀ i j, i ≤ j → j < spans.length →
      (spans.getD i (0, 0)).2 ≤ (spans.getD j (0, 0)).2) :
    ∀ fuel lo hi, lo ≤ hi → hi ≤ spans.length → hi - lo ≤ fuel →
    (∀ j, j < lo → (spans.getD j (0, 0)).2 ≤ pos) →
    (∀ j, hi ≤ j → j < spans.length → pos < (spans.getD j (0, 0)).2) →
    lo ≤ slbGo spans pos fuel lo hi ∧ slbGo spans pos fuel lo hi ≤ hi ∧
    (∀ j, j < slbGo spans pos fuel lo hi → (spans.getD j (0, 0)).2 ≤ pos) ∧
    (∀ j, slbGo spans pos fuel lo hi ≤ j → j < spans.length →
      pos < (spans.getD j (0, 0)).2) := by
  intro fuel
  induction fuel with
  | zero =>
    intro lo hi hlh hhl hfuel hbelow habove
    have : lo = hi := by omega
    subst this
    exact ⟨le_refl _, le_refl _, hbelow, habove⟩
  | succ n ih =>
    intro lo hi hlh hhl hfuel hbelow habove
    rw [slbGo]
    by_cases hlt : lo < hi
    · rw [if_pos hlt]
      set mid := (lo + hi) / 2 with hmid
      have hmlo : lo ≤ mid := by omega
      have hmhi : mid < hi := by omega
      by_cases hcmp : (spans.getD mid (0, 0)).2 ≤ pos
      · rw [if_pos hcmp]
        refine (ih (mid + 1) hi (by omega) hhl (by omega) ?_ habove).imp
          (by omega) (fun h => h)
        intro j hj
        exact le_trans (hmono j mid (by omega) (by omega)) hcmp
      · rw [if_neg hcmp]
        refine (ih lo mid (by omega) (by omega) (by omega) hbelow ?_).imp
          (fun h => h) (fun h => ⟨by omega, h.2⟩)
        intro j hj hjl
        exact lt_of_lt_of_le (by omega) (hmono mid j hj hjl)
    · rw [if_neg hlt]
      have : lo = hi := by omega
      subst this
      exact ⟨le_refl _, le_refl _, hbelow, habove⟩

theorem spanLowerBound_spec {spans : List (Nat × Nat)} {pos : Nat}
    (hm : mergedSpans spans) :
    spanLowerBound spans pos ≤ spans.length ∧
    (∀ j, j < spanLowerBound spans pos → (spans.getD j (0, 0)).2 ≤ pos) ∧
    (∀ j, spanLowerBound spans pos ≤ j → j < spans.length →
      pos < (spans.getD j (0, 0)).2) := by
  have h := @slbGo_spec spans pos
    (fun i j hij hj => mergedSpans_ends_mono hm hij hj)
    spans.length 0 spans.length (by omega) (le_refl _) (by omega)
    (by omega) (by omega)
  exact ⟨h.2.1, h.2.2.1, h.2.2.2⟩

theorem advancePastIgnored_inside {pos : Nat} {spans : List (Nat × Nat)}
    (hm : mergedSpans spans) {sp : Nat × Nat} (hsp : sp ∈ spans)
    (h1 : sp.1 ≤ pos) (h2 : pos < sp.2) :
    advancePastIgnored pos spans = sp.2 := by
  obtain ⟨i, hi, hget⟩ := List.mem_iff_getElem.1 hsp
  have hiD : spans.getD i (0, 0) = sp := by
    rw [List.getD_eq_getElem _ _ hi]; exact hget
  obtain ⟨hlen, hb, ha⟩ := @spanLowerBound_spec spans pos hm
  have hEq : spanLowerBound spans pos = i := by
    by_contra hne
    rcases Nat.lt_or_ge (spanLowerBound spans pos) i with hlt | hge
    · have hm1 := ha _ (le_refl _) (by omega)
      have hm2 := mergedSpans_end_le_start hm hlt hi
      rw [hiD] at hm2
      omega
    · have hlt : i < spanLowerBound spans pos := by omega
      have := hb i hlt
      rw [hiD] at this
      omega
  have hne : ¬ spans.isEmpty = true := by
    cases spans with
    | nil => simp at hi
    | cons a l => simp
  rw [advancePastIgnored, if_neg hne]
  simp only [hEq, hiD, hi, if_true]
  simp [h1, h2]

theorem advancePastIgnored_outside {pos : Nat} {spans : List (Nat × Nat)}
    (hm : mergedSpans spans)
    (h : ∀ sp ∈ spans, ¬(sp.1 ≤ pos ∧ pos < sp.2)) :
    advancePastIgnored pos spans = pos := by
  rw [advancePastIgnored]
  by_cases hE : spans.isEmpty
  · rw [if_pos hE]
  · rw [if_neg hE]
    obtain ⟨hlen, hb, ha⟩ := @spanLowerBound_spec spans pos hm
    by_cases hidx : spanLowerBound spans pos < spans.length
    · have hmem : spans.getD (spanLowerBound spans pos) (0, 0) ∈ spans := by
        rw [List.getD_eq_getElem _ _ hidx]
        exact List.getElem_mem hidx
      have hno := h _ hmem
      have hlt := ha _ (le_refl _) hidx
      have hns : ¬ (spans.getD (spanLowerBound spans pos) (0, 0)).1 ≤ pos :=
        fun hc => hno ⟨hc, hlt⟩
      simp only [hidx, if_true]
      split
      · rename_i hcond
        rw [Bool.and_eq_true, decide_eq_true_eq, decide_eq_true_eq] at hcond
        exact absurd hcond.1 hns
      · rfl
    · simp [hidx]

/-! ## `inSpan` correctness under sortedness (claim C10) -/

theorem startsSorted_head_le {s e : Nat} {rest : List (Nat × Nat)}
    (h : startsSorted ((s, e) :: rest)) : ∀ sp ∈ rest, s ≤ sp.1 := by
  rw [startsSorted, List.chain'_iff_pairwise] at h
  exact fun sp hsp => (List.pairwise_cons.1 h).1 sp hsp

theorem inSpan_iff_of_sorted {pos : Nat} {spans : List (Nat × Nat)}
    (hs : startsSorted spans) :
    inSpan pos spans = true ↔ ∃ sp ∈ spans, sp.1 ≤ pos ∧ pos < sp.2 := by
  induction spans with
  | nil => simp [inSpan]
  | cons hd rest ih =>
    obtain ⟨s, e⟩ := hd
    rw [inSpan]
    by_cases h1 : s ≤ pos ∧ pos < e
    · have hcond : (decide (s ≤ pos) && decide (pos < e)) = true := by
        simp [h1.1, h1.2]
      rw [if_pos hcond]
      constructor
      · intro _
        exact ⟨(s, e), List.mem_cons_self _ _, h1⟩
      · intro _
        rfl
    · have hcond : ¬ (decide (s ≤ pos) && decide (pos < e)) = true := by
        simp only [Bool.and_eq_true, decide_eq_true_eq]
        exact h1
      rw [if_neg hcond]
      by_cases h2 : pos < s
      · rw [if_pos h2]
        refine ⟨fun hff => absurd hff (by simp), ?_⟩
        rintro ⟨sp, hsp, hc1, hc2⟩
        exfalso
        rcases List.mem_cons.1 hsp with rfl | hsp
        · exact h1 ⟨hc1, hc2⟩
        · have := startsSorted_head_le hs sp hsp
          omega
      · rw [if_neg h2]
        rw [startsSorted] at hs
        rw [ih hs.tail]
        constructor
        · rintro ⟨sp, hsp, hc⟩
          exact ⟨sp, List.mem_cons_of_mem _ hsp, hc⟩
        · rintro ⟨sp, hsp, hc⟩
          rcases List.mem_cons.1 hsp with rfl | hsp
          · exact absurd hc h1
          · exact ⟨sp, hsp, hc⟩

/-! ## `findMatchingParen` refines the first zero-depth close paren (claim C6) -/

/-- `advancePastIgnored` never moves backwards: its result is the position
itself or the end of a span strictly beyond it. -/
theorem advancePastIgnored_lt_or_eq (pos : Nat) (spans : List (Nat × Nat)) :
    pos < advancePastIgnored pos spans ∨ advancePastIgnored pos spans = pos := by
  simp only [advancePastIgnored]
  split
  · right; rfl
  · split
    · split
      · rename_i hcond
        rw [Bool.and_eq_true, decide_eq_true_eq, decide_eq_true_eq] at hcond
        left; exact hcond.2
      · right; rfl
    · right; rfl

theorem advancePastIgnored_le (pos : Nat) (spans : List (Nat × Nat)) :
    pos ≤ advancePastIgnored pos spans := by
  rcases advancePastIgnored_lt_or_eq pos spans with h | h
  · omega
  · omega

theorem fmpGo_eq_closeHits (text : List Char) (ignore : List (Nat × Nat)) :
    ∀ fuel i inDQ inSQ esc depth,
    fmpGo text ignore fuel i inDQ inSQ esc depth =
      (match closeHits text ignore fuel i inDQ inSQ esc depth with
       | [] => -1
       | p :: _ => Int.ofNat p) := by
  intro fuel
  induction fuel with
  | zero => intro i dq sq esc depth; rfl
  | succ n ih =>
    intro i dq sq esc depth
    simp only [fmpGo, closeHits]
    split_ifs <;> first | rfl | exact ih _ _ _ _ _

theorem closeHits_mem (text : List Char) (ignore : List (Nat × Nat)) :
    ∀ fuel i inDQ inSQ esc depth p,
    p ∈ closeHits text ignore fuel i inDQ inSQ esc depth →
    charAt text p = ')' ∧ advancePastIgnored p ignore = p ∧ p < text.length ∧
      i ≤ p := by
  intro fuel
  induction fuel with
  | zero => intro i dq sq esc depth p hp; simp [closeHits] at hp
  | succ n ih =>
    intro i dq sq esc depth p hp
    simp only [closeHits] at hp
    have hadv := advancePastIgnored_le i ignore
    split_ifs at hp with h1 h2 h3 h4 h5 h6 h7 h8 h9 h10 h11 h12
    all_goals try simp at hp
    all_goals try
      (have hh := ih _ _ _ _ _ _ hp
       exact ⟨hh.1, hh.2.1, hh.2.2.1, by omega⟩)
    · rcases hp with rfl | hp
      · exact ⟨by assumption, by omega, h1, le_refl _⟩
      · have hh := ih _ _ _ _ _ _ hp
        exact ⟨hh.1, hh.2.1, hh.2.2.1, by omega⟩

/-! ## `countArgsTopLevel` agrees with `sliceTopLevelArgSpans` (claim C9) -/

theorem hasNonWsBetween_of {text : List Char} {t b : Nat} (htb : t < b)
    (htl : t < text.length) (hns : jsIsSpace (charAt text t) = false) :
    hasNonWsBetween text t b = true := by
  rw [hasNonWsBetween, List.any_eq_true]
  have hAt : charAt text t = text[t] := List.getD_eq_getElem text 'u' htl
  refine ⟨text[t], ?_, ?_⟩
  · refine @List.getElem?_mem _ _ 0 _ ?_
    rw [List.getElem?_take_of_lt (by omega), List.getElem?_drop]
    simp [List.getElem?_eq_getElem htl]
  · rw [← hAt]
    simp [hns]

theorem countGo_sliceGo_rel (text : List Char) (endAbs : Nat)
    (hend : endAbs ≤ text.length)
    (hchars : ∀ j, j < endAbs → charAt text j ≠ '^' ∧ charAt text j ≠ '\\') :
    ∀ fuel i depth dq sq saw tok c out,
    csRel text endAbs i dq sq saw tok →
    ∃ k, countGo text [] endAbs fuel i depth dq sq false saw c = c + k ∧
      (sliceGo text [] endAbs fuel i depth dq sq false tok out).length =
        out.length + k := by
  intro fuel
  induction fuel with
  | zero =>
    intro i depth dq sq saw tok c out hrel
    rw [countGo, sliceGo]
    obtain ⟨hst, -⟩ := hrel
    rcases hst with ⟨hsaw, htok⟩ | ⟨hsaw, t, htok, hti, hte, hns⟩
    · subst hsaw htok
      exact ⟨0, by simp [pushTok]⟩
    · subst hsaw htok
      refine ⟨1, by simp, ?_⟩
      rw [pushTok, if_pos (hasNonWsBetween_of hte (by omega) hns)]
      simp
  | succ n ih =>
    intro i depth dq sq saw tok c out hrel
    obtain ⟨hst, hstr⟩ := hrel
    rw [countGo, sliceGo]
    by_cases hi : i < endAbs
    · rw [if_pos hi, if_pos hi]
      have hnoj : ¬ (advancePastIgnored i [] ≠ i) := fun h => h rfl
      rw [if_neg hnoj, if_neg hnoj]
      have hch := hchars i hi
      by_cases hsq : (dq || sq) = true
      · rw [if_pos hsq, if_pos hsq]
        have hsaw : saw = true := hstr hsq
        subst hsaw
        rcases hst with ⟨hf, -⟩ | ⟨-, t, htok, hti, hte, hns⟩
        · exact absurd hf (by simp)
        · subst htok
          simp only [Bool.false_eq_true, if_false, hch.1, hch.2, Option.isNone_some]
          by_cases hdq : (dq && decide (charAt text i = '"')) = true
          · rw [if_pos hdq, if_pos hdq]
            exact ih (i + 1) depth false sq true (some t) c out
              ⟨Or.inr ⟨rfl, t, rfl, by omega, hte, hns⟩,
               fun h => rfl⟩
          · rw [if_neg hdq, if_neg hdq]
            by_cases hsq' : (sq && decide (charAt text i = '\'')) = true
            · rw [if_pos hsq', if_pos hsq']
              exact ih (i + 1) depth dq false true (some t) c out
                ⟨Or.inr ⟨rfl, t, rfl, by omega, hte, hns⟩, fun h => rfl⟩
            · rw [if_neg hsq', if_neg hsq']
              exact ih (i + 1) depth dq sq true (some t) c out
                ⟨Or.inr ⟨rfl, t, rfl, by omega, hte, hns⟩, fun h => rfl⟩
      · rw [if_neg hsq, if_neg hsq]
        have hbools : dq = false ∧ sq = false := by
          rcases dq <;> rcases sq <;> simp_all
        obtain ⟨hdqf, hsqf⟩ := hbools
        subst hdqf hsqf
        -- a token-starting character (quote, paren, or generic non-space):
        -- the relation is re-established with start offset `i` when no run
        -- is pending, and kept otherwise
        have hkeep : ∀ (ns : jsIsSpace (charAt text i) = false),
            csRel text endAbs (i + 1) false false true
              (if tok.isNone then some i else tok) := by
          intro ns
          rcases hst with ⟨hsaw, htok⟩ | ⟨hsaw, t, htok, hti, hte, hns⟩
          · subst htok
            exact ⟨Or.inr ⟨rfl, i, by simp, by omega, hi, ns⟩, fun _ => rfl⟩
          · subst htok
            exact ⟨Or.inr ⟨rfl, t, by simp, by omega, hte, hns⟩, fun _ => rfl⟩
        by_cases hq1 : charAt text i = '"'
        · rw [if_pos hq1, if_pos hq1]
          exact ih (i + 1) depth true false true _ c out
            ⟨(hkeep (by rw [hq1]; rfl)).1, fun _ => rfl⟩
        · rw [if_neg hq1, if_neg hq1]
          by_cases hq2 : charAt text i = '\''
          · rw [if_pos hq2, if_pos hq2]
            exact ih (i + 1) depth false true true _ c out
              ⟨(hkeep (by rw [hq2]; rfl)).1, fun _ => rfl⟩
          · rw [if_neg hq2, if_neg hq2]
            by_cases hop : charAt text i = '('
            · rw [if_pos hop, if_pos hop]
              exact ih (i + 1) (depth + 1) false false true _ c out
                (hkeep (by rw [hop]; rfl))
            · rw [if_neg hop, if_neg hop]
              by_cases hcl : charAt text i = ')'
              · rw [if_pos hcl, if_pos hcl]
                exact ih (i + 1) _ false false true _ c out
                  (hkeep (by rw [hcl]; rfl))
              · rw [if_neg hcl, if_neg hcl]
                by_cases hcm : (decide (charAt text i = ',') && decide (depth = 0)) = true
                · rw [if_pos hcm, if_pos hcm]
                  -- top-level comma: flush on one side, pushTok on the other
                  obtain ⟨k, hc, hs⟩ := ih (i + 1) depth false false false none
                    (c + (if saw then 1 else 0)) (pushTok text out tok i)
                    ⟨Or.inl ⟨rfl, rfl⟩, by simp⟩
                  refine ⟨(if saw then 1 else 0) + k, by rw [hc]; omega, ?_⟩
                  rw [hs]
                  have : (pushTok text out tok i).length =
                      out.length + (if saw then 1 else 0) := by
                    rcases hst with ⟨hsaw, htok⟩ | ⟨hsaw, t, htok, hti, hte, hns⟩
                    · subst hsaw htok; simp [pushTok]
                    · subst hsaw htok
                      rw [pushTok, if_pos (hasNonWsBetween_of hti (by omega) hns)]
                      simp
                  omega
                · rw [if_neg hcm, if_neg hcm]
                  by_cases hsp : jsIsSpace (charAt text i) = true
                  · rw [if_pos hsp]
                    have hslice : (!jsIsSpace (charAt text i) && tok.isNone) = false := by
                      simp [hsp]
                    rw [hslice]
                    refine ih (i + 1) depth false false saw tok c out ⟨?_, by simp⟩
                    rcases hst with ⟨hsaw, htok⟩ | ⟨hsaw, t, htok, hti, hte, hns⟩
                    · exact Or.inl ⟨hsaw, htok⟩
                    · exact Or.inr ⟨hsaw, t, htok, by omega, hte, hns⟩
                  · rw [if_neg hsp]
                    have hns : jsIsSpace (charAt text i) = false := by
                      rcases h : jsIsSpace (charAt text i) with _ | _
                      · rfl
                      · exact absurd h hsp
                    have hslice : (!jsIsSpace (charAt text i) && tok.isNone) = tok.isNone := by
                      simp [hns]
                    rw [hslice]
                    exact ih (i + 1) depth false false true _ c out (hkeep hns)
    · rw [if_neg hi, if_neg hi]
      rcases hst with ⟨hsaw, htok⟩ | ⟨hsaw, t, htok, hti, hte, hns⟩
      · subst hsaw htok
        exact ⟨0, by simp [pushTok]⟩
      · subst hsaw htok
        refine ⟨1, by simp, ?_⟩
        rw [pushTok, if_pos (hasNonWsBetween_of hte (by omega) hns)]
        simp

/-! ## Body-extent scan correctness (claim C2) -/

theorem kwAt_eq_some {text : List Char} {p : Nat} {k : Kw}
    (h : kwAt text p = some k) : kwMatchesAt text p k = true := by
  rw [kwAt] at h
  split_ifs at h <;> injection h with h <;> subst h <;> assumption

theorem kwEnd_extract {text : List Char} {p : Nat}
    (h : kwMatchesAt text p Kw.kEnd = true) :
    p + 3 ≤ text.length ∧
    Char.toLower (charAt text p) = 'e' ∧
    Char.toLower (charAt text (p + 1)) = 'n' ∧
    Char.toLower (charAt text (p + 2)) = 'd' ∧
    (text.length ≤ p + 3 ∨ jsIsWordChar (charAt text (p + 3)) = false) := by
  rw [kwMatchesAt] at h
  rw [Bool.and_eq_true, Bool.and_eq_true] at h
  obtain ⟨⟨-, h2⟩, h3⟩ := h
  rw [beq_iff_eq] at h2
  have hlen : p + 3 ≤ text.length := by
    have := congrArg List.length h2
    simp only [List.length_map, List.length_take, List.length_drop, Kw.chars,
      List.length_cons, List.length_nil] at this
    omega
  have hat : ∀ j, j < 3 → Char.toLower (charAt text (p + j)) = (Kw.kEnd.chars.getD j 'x') := by
    intro j hj
    have hj' : p + j < text.length := by omega
    have e0 : (((text.drop p).take Kw.kEnd.chars.length).map Char.toLower)[j]? =
        Kw.kEnd.chars[j]? := by rw [h2]
    rw [List.getElem?_map, List.getElem?_take_of_lt (by simp [Kw.chars]; omega),
      List.getElem?_drop, List.getElem?_eq_getElem hj'] at e0
    have hcharAt : charAt text (p + j) = text[p + j] :=
      List.getD_eq_getElem text 'u' hj'
    rw [hcharAt]
    have e1 : Kw.kEnd.chars[j]? = some (Kw.kEnd.chars.getD j 'x') := by
      rw [List.getD_eq_getElem _ _ (by simp [Kw.chars]; omega),
        List.getElem?_eq_getElem (by simp [Kw.chars]; omega)]
    rw [e1] at e0
    simpa using e0
  refine ⟨hlen, ?_, ?_, ?_, ?_⟩
  · simpa using hat 0 (by omega)
  · simpa using hat 1 (by omega)
  · simpa using hat 2 (by omega)
  · rw [Bool.or_eq_true] at h3
    rcases h3 with h | h
    · left
      simpa [Kw.chars] using of_decide_eq_true h
    · right
      simpa [Kw.chars, Bool.not_eq_true'] using h

theorem kwEnd_no_cross {text : List Char} {p maxEnd : Nat}
    (hm : kwMatchesAt text p Kw.kEnd = true) (hpm : p < maxEnd)
    (hf : maxEnd = text.length ∨
      (maxEnd < text.length ∧ (charAt text maxEnd = 'f' ∨ charAt text maxEnd = 'F'))) :
    p + 3 ≤ maxEnd ∧ (maxEnd < text.length → p + 3 < maxEnd) := by
  obtain ⟨hlen, he, hn, hd, hb⟩ := kwEnd_extract hm
  rcases hf with rfl | ⟨hlt, hfF⟩
  · exact ⟨hlen, by omega⟩
  · have hstrict : p + 3 < maxEnd := by
      by_contra hge
      push_neg at hge
      have hcases : maxEnd = p + 1 ∨ maxEnd = p + 2 ∨ maxEnd = p + 3 := by omega
      rcases hcases with rfl | rfl | rfl
      · rcases hfF with hc | hc <;> rw [hc] at hn <;> exact absurd hn (by decide)
      · rcases hfF with hc | hc <;> rw [hc] at hd <;> exact absurd hd (by decide)
      · rcases hb with hb | hb
        · omega
        · rcases hfF with hc | hc <;> rw [hc] at hb <;> exact absurd hb (by decide)
    exact ⟨by omega, fun _ => hstrict⟩

theorem bodyScanGo_spec (text : List Char) (ignoreCS : List (Nat × Nat))
    (maxEnd : Nat)
    (hf : maxEnd = text.length ∨
      (maxEnd < text.length ∧ (charAt text maxEnd = 'f' ∨ charAt text maxEnd = 'F'))) :
    ∀ fuel p depth,
    bodyScanGo text ignoreCS maxEnd fuel p depth ≤ maxEnd ∧
    (bodyScanGo text ignoreCS maxEnd fuel p depth = maxEnd ∨
      ∃ q, p ≤ q ∧ q < maxEnd ∧ kwAt text q = some Kw.kEnd ∧
        inSpan q ignoreCS = false ∧
        bodyScanGo text ignoreCS maxEnd fuel p depth = q + 3 ∧
        (maxEnd < text.length → q + 3 < maxEnd)) := by
  intro fuel
  induction fuel with
  | zero => intro p depth; exact ⟨le_refl _, Or.inl rfl⟩
  | succ n ih =>
    intro p depth
    by_cases hp : p < text.length
    · rcases hkw : kwAt text p with - | k
      · simp only [bodyScanGo, hkw, if_pos hp]
        obtain ⟨hle, hres⟩ := ih (p + 1) depth
        refine ⟨hle, ?_⟩
        rcases hres with h | ⟨q, hq1, hq⟩
        · exact Or.inl h
        · exact Or.inr ⟨q, by omega, hq⟩
      · simp only [bodyScanGo, hkw, if_pos hp]
        by_cases hbound : maxEnd ≤ p
        · rw [if_pos hbound]
          exact ⟨le_refl _, Or.inl rfl⟩
        · rw [if_neg hbound]
          by_cases hig : inSpan p ignoreCS = true
          · rw [if_pos hig]
            obtain ⟨hle, hres⟩ := ih (p + k.chars.length) depth
            refine ⟨hle, ?_⟩
            rcases hres with h | ⟨q, hq1, hq⟩
            · exact Or.inl h
            · exact Or.inr ⟨q, by omega, hq⟩
          · rw [if_neg hig]
            by_cases hk : k = Kw.kEnd
            · rw [if_pos hk]
              by_cases hz : depth - 1 = 0
              · rw [if_pos hz]
                subst hk
                have hm := kwAt_eq_some hkw
                have hcross := kwEnd_no_cross hm (by omega) hf
                refine ⟨hcross.1, Or.inr ⟨p, le_refl _, by omega, hkw, ?_, rfl,
                  hcross.2⟩⟩
                rcases hh : inSpan p ignoreCS with - | -
                · rfl
                · exact absurd hh hig
              · rw [if_neg hz]
                obtain ⟨hle, hres⟩ := ih (p + k.chars.length) (depth - 1)
                refine ⟨hle, ?_⟩
                rcases hres with h | ⟨q, hq1, hq⟩
                · exact Or.inl h
                · exact Or.inr ⟨q, by omega, hq⟩
            · rw [if_neg hk]
              obtain ⟨hle, hres⟩ := ih (p + k.chars.length) (depth + 1)
              refine ⟨hle, ?_⟩
              rcases hres with h | ⟨q, hq1, hq⟩
              · exact Or.inl h
              · exact Or.inr ⟨q, by omega, hq⟩
    · rw [bodyScanGo, if_neg hp]
      exact ⟨le_refl _, Or.inl rfl⟩

/-! ## Association-list `Map` lemmas -/

theorem mapGet_nil {α : Type} (k : String) :
    mapGet ([] : List (String × α)) k = none := rfl

theorem mapGet_cons_pos {α : Type} {p : String × α} {ps : List (String × α)}
    {k : String} (h : p.1 = k) : mapGet (p :: ps) k = some p.2 := by
  rw [mapGet, List.find?_cons_of_pos _ (by simpa using h)]
  rfl

theorem mapGet_cons_neg {α : Type} {p : String × α} {ps : List (String × α)}
    {k : String} (h : ¬ p.1 = k) : mapGet (p :: ps) k = mapGet ps k := by
  rw [mapGet, List.find?_cons_of_neg _ (by simpa using h)]
  rfl

theorem mapGet_set_eq {α : Type} (m : List (String × α)) (k : String) (v : α) :
    mapGet (mapSet m k v) k = some v := by
  rw [mapSet]
  split
  · rename_i hany
    induction m with
    | nil => simp at hany
    | cons p ps ih =>
      by_cases hp : p.1 = k
      · rw [List.map_cons, if_pos hp, mapGet_cons_pos rfl]
      · have hany2 : ps.any (fun p => p.1 = k) = true := by
          rcases List.any_eq_true.1 hany with ⟨q, hq, hq2⟩
          rcases List.mem_cons.1 hq with rfl | hq
          · simp [hp] at hq2
          · exact List.any_eq_true.2 ⟨q, hq, hq2⟩
        rw [List.map_cons, if_neg hp, mapGet_cons_neg hp]
        exact ih hany2
  · rename_i hany
    induction m with
    | nil => rw [List.nil_append, mapGet_cons_pos rfl]
    | cons p ps ih =>
      have hp : ¬ p.1 = k := fun hc =>
        hany (List.any_eq_true.2 ⟨p, List.mem_cons_self _ _, by simpa using hc⟩)
      have hany2 : ¬ ps.any (fun p => p.1 = k) = true := fun hc => by
        rcases List.any_eq_true.1 hc with ⟨q, hq, hq2⟩
        exact hany (List.any_eq_true.2 ⟨q, List.mem_cons_of_mem _ hq, hq2⟩)
      rw [List.cons_append, mapGet_cons_neg hp]
      exact ih hany2

theorem mapGet_set_ne {α : Type} (m : List (String × α)) (k k' : String) (v : α)
    (h : k' ≠ k) : mapGet (mapSet m k v) k' = mapGet m k' := by
  rw [mapSet]
  split
  · rename_i hany
    clear hany
    induction m with
    | nil => rfl
    | cons p ps ih =>
      by_cases hp : p.1 = k
      · rw [List.map_cons, if_pos hp,
          @mapGet_cons_neg _ (k, v) _ _ (by simpa using h ∘ Eq.symm),
          mapGet_cons_neg (by rw [hp]; exact h ∘ Eq.symm)]
        exact ih
      · by_cases hk' : p.1 = k'
        · rw [List.map_cons, if_neg hp, mapGet_cons_pos hk', mapGet_cons_pos hk']
        · rw [List.map_cons, if_neg hp, mapGet_cons_neg hk', mapGet_cons_neg hk']
          exact ih
  · rename_i hany
    clear hany
    induction m with
    | nil =>
      rw [List.nil_append, @mapGet_cons_neg _ (k, v) _ _ (by simpa using h ∘ Eq.symm)]
    | cons p ps ih =>
      by_cases hk' : p.1 = k'
      · rw [List.cons_append, mapGet_cons_pos hk', mapGet_cons_pos hk']
      · rw [List.cons_append, mapGet_cons_neg hk', mapGet_cons_neg hk']
        exact ih

theorem mapGet_delete_eq {α : Type} (m : List (String × α)) (k : String) :
    mapGet (mapDelete m k) k = none := by
  have hfind : (mapDelete m k).find? (fun p => decide (p.1 = k)) = none := by
    rw [List.find?_eq_none]
    intro x hx
    rw [mapDelete] at hx
    have := List.of_mem_filter hx
    simp only [decide_eq_true_eq] at this ⊢
    exact this
  rw [mapGet, hfind]
  rfl

theorem mapGet_delete_ne {α : Type} (m : List (String × α)) (k k' : String)
    (h : k' ≠ k) : mapGet (mapDelete m k) k' = mapGet m k' := by
  induction m with
  | nil => rfl
  | cons p ps ih =>
    rw [mapDelete, List.filter_cons]
    by_cases hp : p.1 = k
    · rw [if_neg (by simpa using hp)]
      rw [mapDelete] at ih
      rw [ih, mapGet_cons_neg (by rw [hp]; exact h ∘ Eq.symm)]
    · rw [if_pos (by simpa using hp)]
      by_cases hk' : p.1 = k'
      · rw [mapGet_cons_pos hk', mapGet_cons_pos hk']
      · rw [mapGet_cons_neg hk', mapGet_cons_neg hk']
        rw [mapDelete] at ih
        exact ih

theorem foldDelete_get {α : Type} (keys : List String)
    (m : List (String × α)) (k : String) :
    mapGet (keys.foldl (fun m k => mapDelete m k) m) k =
      if k ∈ keys then none else mapGet m k := by
  induction keys generalizing m with
  | nil => simp
  | cons k0 rest ih =>
    rw [List.foldl_cons, ih]
    by_cases hk : k ∈ rest
    · rw [if_pos hk, if_pos (List.mem_cons_of_mem _ hk)]
    · rw [if_neg hk]
      by_cases hk0 : k = k0
      · subst hk0
        rw [if_pos (List.mem_cons_self _ _), mapGet_delete_eq]
      · rw [if_neg (by simp [hk, hk0]), mapGet_delete_ne _ _ _ hk0]

theorem purgeVarStep_get (file : String)
    (m : List (String × List VariableEntry)) (k0 k : String) :
    mapGet (purgeVarStep file m k0) k =
      if k = k0 then purgeVarTransform file (mapGet m k0) else mapGet m k := by
  rcases hm : mapGet m k0 with - | arr
  · simp only [purgeVarStep, hm, purgeVarTransform]
    by_cases hk : k = k0
    · rw [if_pos hk, hk, hm]
    · rw [if_neg hk]
  · simp only [purgeVarStep, hm, purgeVarTransform]
    by_cases hemp : (arr.filter (fun (e : VariableEntry) => e.file ≠ file)).isEmpty
    · rw [if_pos hemp, if_pos hemp]
      by_cases hk : k = k0
      · rw [if_pos hk, hk, mapGet_delete_eq]
      · rw [if_neg hk, mapGet_delete_ne _ _ _ hk]
    · rw [if_neg hemp, if_neg hemp]
      by_cases hk : k = k0
      · rw [if_pos hk, hk, mapGet_set_eq]
      · rw [if_neg hk, mapGet_set_ne _ _ _ _ hk]

theorem purgeVarTransform_idem (file : String)
    (o : Option (List VariableEntry)) :
    purgeVarTransform file (purgeVarTransform file o) =
      purgeVarTransform file o := by
  rcases o with - | arr
  · rfl
  · rw [purgeVarTransform]
    by_cases hemp : (arr.filter (fun (e : VariableEntry) => e.file ≠ file)).isEmpty
    · rw [if_pos hemp]
      rfl
    · rw [if_neg hemp, purgeVarTransform]
      have hff : (arr.filter (fun (e : VariableEntry) => e.file ≠ file)).filter
          (fun (e : VariableEntry) => e.file ≠ file) =
          arr.filter (fun (e : VariableEntry) => e.file ≠ file) := by
        rw [List.filter_filter]
        simp
      rw [hff, if_neg hemp]

theorem foldPurgeVar_get (file : String) (keys : List String)
    (m : List (String × List VariableEntry)) (k : String) :
    mapGet (keys.foldl (purgeVarStep file) m) k =
      if k ∈ keys then purgeVarTransform file (mapGet m k) else mapGet m k := by
  induction keys generalizing m with
  | nil => simp
  | cons k0 rest ih =>
    rw [List.foldl_cons, ih]
    by_cases hk : k ∈ rest
    · rw [if_pos hk, if_pos (List.mem_cons_of_mem _ hk), purgeVarStep_get]
      by_cases hk0 : k = k0
      · rw [if_pos hk0, hk0, purgeVarTransform_idem]
      · rw [if_neg hk0]
    · rw [if_neg hk, purgeVarStep_get]
      by_cases hk0 : k = k0
      · rw [if_pos hk0, if_pos (by simp [hk0]), hk0]
      · rw [if_neg hk0, if_neg (by simp [hk, hk0])]

/-! ## Invariant preservation by the indexer operations -/

theorem funCoverage_of_eq {s s' : IndexerState}
    (h1 : s'.functionCache = s.functionCache)
    (h2 : s'.functionKeysByFile = s.functionKeysByFile)
    (h : funCoverage s) : funCoverage s' := by
  intro k fi hget f hf
  rw [h1] at hget
  rw [h2]
  exact h k fi hget f hf

theorem varCoverage_of_eq {s s' : IndexerState}
    (h1 : s'.variableCache = s.variableCache)
    (h2 : s'.variableKeysByFile = s.variableKeysByFile)
    (h : varCoverage s) : varCoverage s' := by
  intro k arr hget e he
  rw [h1] at hget
  rw [h2]
  exact h k arr hget e he

theorem domainsAligned_of_eq {s s' : IndexerState}
    (h1 : s'.functionRangesByFile = s.functionRangesByFile)
    (h2 : s'.ignoreSpansByFile = s.ignoreSpansByFile)
    (h : domainsAligned s) : domainsAligned s' := by
  intro f
  rw [h1, h2]
  exact h f

theorem addVar_functionCache (s : IndexerState) (n : String) (e : VariableEntry) :
    (addVar s n e).functionCache = s.functionCache := rfl

theorem addVar_functionRangesByFile (s : IndexerState) (n : String)
    (e : VariableEntry) :
    (addVar s n e).functionRangesByFile = s.functionRangesByFile := rfl

theorem addVar_ignoreSpansByFile (s : IndexerState) (n : String)
    (e : VariableEntry) :
    (addVar s n e).ignoreSpansByFile = s.ignoreSpansByFile := rfl

theorem addVar_functionKeysByFile (s : IndexerState) (n : String)
    (e : VariableEntry) :
    (addVar s n e).functionKeysByFile = s.functionKeysByFile := rfl

theorem addVar_varKeys_mono (s : IndexerState) (n : String) (e : VariableEntry)
    (f k0 : String)
    (h : k0 ∈ (mapGet s.variableKeysByFile f).getD []) :
    k0 ∈ (mapGet (addVar s n e).variableKeysByFile f).getD [] := by
  rcases hm : mapGet s.variableKeysByFile e.file with - | ks <;>
    simp only [addVar, hm]
  · by_cases hf : f = e.file
    · rw [hf, hm] at h
      simp at h
    · rw [mapGet_set_ne _ _ _ _ hf]
      exact h
  · by_cases hf : f = e.file
    · rw [hf, mapGet_set_eq]
      rw [hf, hm] at h
      simp only [Option.getD_some] at h ⊢
      split
      · exact h
      · exact List.mem_append_left _ h
    · rw [mapGet_set_ne _ _ _ _ hf]
      exact h

theorem addVar_varKeys_self (s : IndexerState) (n : String) (e : VariableEntry) :
    jsToLower n ∈ (mapGet (addVar s n e).variableKeysByFile e.file).getD [] := by
  rcases hm : mapGet s.variableKeysByFile e.file with - | ks <;>
    simp only [addVar, hm]
  · rw [mapGet_set_eq]
    simp
  · rw [mapGet_set_eq]
    simp only [Option.getD_some]
    split
    · assumption
    · simp

theorem addVar_varCache_get (s : IndexerState) (n : String) (e : VariableEntry)
    (k : String) :
    mapGet (addVar s n e).variableCache k =
      if k = jsToLower n then
        some ((mapGet s.variableCache (jsToLower n)).getD [] ++ [e])
      else mapGet s.variableCache k := by
  rcases hm : mapGet s.variableCache (jsToLower n) with - | arr <;>
    simp only [addVar, hm]
  · by_cases hk : k = jsToLower n
    · rw [if_pos hk, hk, mapGet_set_eq]
      simp
    · rw [if_neg hk, mapGet_set_ne _ _ _ _ hk]
  · by_cases hk : k = jsToLower n
    · rw [if_pos hk, hk, mapGet_set_eq]
      simp
    · rw [if_neg hk, mapGet_set_ne _ _ _ _ hk]

theorem addVar_varCoverage {s : IndexerState} (h : varCoverage s)
    (n : String) (e : VariableEntry) : varCoverage (addVar s n e) := by
  intro k arr hget x hx
  rw [addVar_varCache_get] at hget
  by_cases hk : k = jsToLower n
  · rw [if_pos hk] at hget
    injection hget with hget
    subst hget
    rcases List.mem_append.1 hx with hx | hx
    · rcases hmm : mapGet s.variableCache (jsToLower n) with - | old
      · rw [hmm] at hx
        simp at hx
      · rw [hmm] at hx
        simp only [Option.getD_some] at hx
        rw [hk]
        exact addVar_varKeys_mono _ _ _ _ _ (h _ _ hmm x hx)
    · have hxe : x = e := by simpa using hx
      subst hxe
      rw [hk]
      exact addVar_varKeys_self _ _ _
  · rw [if_neg hk] at hget
    exact addVar_varKeys_mono _ _ _ _ _ (h k arr hget x hx)

theorem addVar_funCoverage {s : IndexerState} (h : funCoverage s)
    (n : String) (e : VariableEntry) : funCoverage (addVar s n e) := h

theorem addVar_domainsAligned {s : IndexerState} (h : domainsAligned s)
    (n : String) (e : VariableEntry) : domainsAligned (addVar s n e) := h

theorem addVar_mem_persist (s : IndexerState) (n : String) (e : VariableEntry)
    (k : String) (x : VariableEntry)
    (h : x ∈ (mapGet s.variableCache k).getD []) :
    x ∈ (mapGet (addVar s n e).variableCache k).getD [] := by
  rw [addVar_varCache_get]
  by_cases hk : k = jsToLower n
  · rw [if_pos hk]
    rw [hk] at h
    simp only [Option.getD_some]
    exact List.mem_append_left _ (by simpa using h)
  · rw [if_neg hk]
    exact h

theorem addVar_mem_self (s : IndexerState) (n : String) (e : VariableEntry) :
    e ∈ (mapGet (addVar s n e).variableCache (jsToLower n)).getD [] := by
  rw [addVar_varCache_get, if_pos rfl]
  simp

theorem foldG_pres {α : Type} (P : IndexerState → Prop)
    (g : IndexerState → α → IndexerState)
    (hg : ∀ st v, P st → P (g st v)) :
    ∀ (l : List α) (s : IndexerState), P s → P (l.foldl g s)
  | [], _, h => h
  | v :: tl, s, h => by
    rw [List.foldl_cons]
    exact foldG_pres P g hg tl (g s v) (hg s v h)

theorem foldG_functionCache {α : Type} (g : IndexerState → α → IndexerState)
    (hg : ∀ st v, (g st v).functionCache = st.functionCache) :
    ∀ (l : List α) (s : IndexerState),
      (l.foldl g s).functionCache = s.functionCache
  | [], _ => rfl
  | v :: tl, s => by
    rw [List.foldl_cons, foldG_functionCache g hg tl, hg]

theorem foldG_functionRangesByFile {α : Type}
    (g : IndexerState → α → IndexerState)
    (hg : ∀ st v, (g st v).functionRangesByFile = st.functionRangesByFile) :
    ∀ (l : List α) (s : IndexerState),
      (l.foldl g s).functionRangesByFile = s.functionRangesByFile
  | [], _ => rfl
  | v :: tl, s => by
    rw [List.foldl_cons, foldG_functionRangesByFile g hg tl, hg]

theorem foldG_ignoreSpansByFile {α : Type}
    (g : IndexerState → α → IndexerState)
    (hg : ∀ st v, (g st v).ignoreSpansByFile = st.ignoreSpansByFile) :
    ∀ (l : List α) (s : IndexerState),
      (l.foldl g s).ignoreSpansByFile = s.ignoreSpansByFile
  | [], _ => rfl
  | v :: tl, s => by
    rw [List.foldl_cons, foldG_ignoreSpansByFile g hg tl, hg]

theorem foldG_functionKeysByFile {α : Type}
    (g : IndexerState → α → IndexerState)
    (hg : ∀ st v, (g st v).functionKeysByFile = st.functionKeysByFile) :
    ∀ (l : List α) (s : IndexerState),
      (l.foldl g s).functionKeysByFile = s.functionKeysByFile
  | [], _ => rfl
  | v :: tl, s => by
    rw [List.foldl_cons, foldG_functionKeysByFile g hg tl, hg]

theorem foldDeclVars_mem :
    ∀ (l : List VariableEntry) (v : VariableEntry), v ∈ l →
      ∀ s : IndexerState,
        v ∈ (mapGet ((l.foldl
          (fun (st : IndexerState) (w : VariableEntry) => addVar st w.name w)
          s)).variableCache (jsToLower v.name)).getD []
  | [], v, hv, _ => absurd hv (List.not_mem_nil v)
  | u :: tl, v, hv, s => by
    rw [List.foldl_cons]
    rcases List.mem_cons.1 hv with h | h
    · subst h
      exact foldG_pres
        (fun st => v ∈ (mapGet st.variableCache (jsToLower v.name)).getD [])
        _ (fun st w hw => addVar_mem_persist st w.name w _ _ hw) tl _
        (addVar_mem_self s v.name v)
    · exact foldDeclVars_mem tl v h _

theorem indexOneFunction_frbf (file : String) (st : IndexerState)
    (f : FunctionRange) :
    (indexOneFunction file st f).functionRangesByFile =
      st.functionRangesByFile := by
  refine Eq.trans (foldG_functionRangesByFile _ ?_ _ _) rfl
  intro st3 v
  exact addVar_functionRangesByFile _ _ _

theorem indexOneFunction_isp (file : String) (st : IndexerState)
    (f : FunctionRange) :
    (indexOneFunction file st f).ignoreSpansByFile = st.ignoreSpansByFile := by
  refine Eq.trans (foldG_ignoreSpansByFile _ ?_ _ _) rfl
  intro st3 v
  exact addVar_ignoreSpansByFile _ _ _

theorem indexOneFunction_fc (file : String) (st : IndexerState)
    (f : FunctionRange) :
    (indexOneFunction file st f).functionCache =
      mapSet st.functionCache (jsToLower f.name) (funInfoOf file f) := by
  refine Eq.trans (foldG_functionCache _ ?_ _ _) rfl
  intro st3 v
  exact addVar_functionCache _ _ _

theorem indexOneFunction_fk (file : String) (st : IndexerState)
    (f : FunctionRange) :
    (indexOneFunction file st f).functionKeysByFile =
      (match mapGet st.functionKeysByFile file with
        | none => mapSet st.functionKeysByFile file [jsToLower f.name]
        | some ks => mapSet st.functionKeysByFile file
            (if jsToLower f.name ∈ ks then ks else ks ++ [jsToLower f.name])) := by
  refine Eq.trans (foldG_functionKeysByFile _ ?_ _ _) rfl
  intro st3 v
  exact addVar_functionKeysByFile _ _ _

theorem indexOneFunction_fc_get (file : String) (st : IndexerState)
    (f : FunctionRange) (k : String) :
    mapGet (indexOneFunction file st f).functionCache k =
      if k = jsToLower f.name then some (funInfoOf file f)
      else mapGet st.functionCache k := by
  rw [indexOneFunction_fc]
  by_cases hk : k = jsToLower f.name
  · rw [if_pos hk, hk, mapGet_set_eq]
  · rw [if_neg hk, mapGet_set_ne _ _ _ _ hk]

theorem indexOneFunction_fk_mono (file : String) (st : IndexerState)
    (f : FunctionRange) (f' k0 : String)
    (h : k0 ∈ (mapGet st.functionKeysByFile f').getD []) :
    k0 ∈ (mapGet (indexOneFunction file st f).functionKeysByFile f').getD [] := by
  rw [indexOneFunction_fk]
  rcases hm : mapGet st.functionKeysByFile file with - | ks <;> simp only [hm]
  · by_cases hf : f' = file
    · rw [hf, hm] at h
      simp at h
    · rw [mapGet_set_ne _ _ _ _ hf]
      exact h
  · by_cases hf : f' = file
    · rw [hf, mapGet_set_eq]
      rw [hf, hm] at h
      simp only [Option.getD_some] at h ⊢
      split
      · exact h
      · exact List.mem_append_left _ h
    · rw [mapGet_set_ne _ _ _ _ hf]
      exact h

theorem indexOneFunction_fk_self (file : String) (st : IndexerState)
    (f : FunctionRange) :
    jsToLower f.name ∈
      (mapGet (indexOneFunction file st f).functionKeysByFile file).getD [] := by
  rw [indexOneFunction_fk]
  rcases hm : mapGet st.functionKeysByFile file with - | ks <;> simp only [hm]
  · rw [mapGet_set_eq]
    simp
  · rw [mapGet_set_eq]
    simp only [Option.getD_some]
    split
    · assumption
    · simp

theorem indexOneFunction_funCoverage {st : IndexerState} (h : funCoverage st)
    (file : String) (f : FunctionRange) :
    funCoverage (indexOneFunction file st f) := by
  intro k fi hget f' hf'
  rw [indexOneFunction_fc_get] at hget
  by_cases hk : k = jsToLower f.name
  · rw [if_pos hk] at hget
    injection hget with hget
    subst hget
    have hff : file = f' := by
      simpa [funInfoOf] using hf'
    subst hff
    rw [hk]
    exact indexOneFunction_fk_self _ _ _
  · rw [if_neg hk] at hget
    exact indexOneFunction_fk_mono _ _ _ _ _ (h k fi hget f' hf')

theorem indexOneFunction_varCoverage {st : IndexerState} (h : varCoverage st)
    (file : String) (f : FunctionRange) :
    varCoverage (indexOneFunction file st f) := by
  refine foldG_pres varCoverage _ (fun s3 v hv => addVar_varCoverage hv _ _) _ _ ?_
  exact h

theorem indexOneFunction_domainsAligned {st : IndexerState}
    (h : domainsAligned st) (file : String) (f : FunctionRange) :
    domainsAligned (indexOneFunction file st f) :=
  domainsAligned_of_eq (indexOneFunction_frbf file st f)
    (indexOneFunction_isp file st f) h

theorem indexOneFunction_consistent {st : IndexerState}
    (h : TablesConsistent st) (file : String) (f : FunctionRange) :
    TablesConsistent (indexOneFunction file st f) :=
  ⟨indexOneFunction_funCoverage h.1 file f,
   indexOneFunction_varCoverage h.2.1 file f,
   indexOneFunction_domainsAligned h.2.2 file f⟩

theorem purgeFileModel_frbf (s : IndexerState) (file : String) :
    (purgeFileModel s file).functionRangesByFile =
      mapDelete s.functionRangesByFile file := rfl

theorem purgeFileModel_isp (s : IndexerState) (file : String) :
    (purgeFileModel s file).ignoreSpansByFile =
      mapDelete s.ignoreSpansByFile file := rfl

theorem purgeFileModel_fc_get (s : IndexerState) (file k : String) :
    mapGet (purgeFileModel s file).functionCache k =
      (match mapGet s.functionKeysByFile file with
        | some keys => if k ∈ keys then none else mapGet s.functionCache k
        | none => mapGet s.functionCache k) := by
  rcases hm : mapGet s.functionKeysByFile file with - | keys <;>
    simp only [purgeFileModel, hm]
  rw [foldDelete_get]

theorem purgeFileModel_vc_get (s : IndexerState) (file k : String) :
    mapGet (purgeFileModel s file).variableCache k =
      (match mapGet s.variableKeysByFile file with
        | some keys =>
            if k ∈ keys then purgeVarTransform file (mapGet s.variableCache k)
            else mapGet s.variableCache k
        | none => mapGet s.variableCache k) := by
  rcases hm : mapGet s.variableKeysByFile file with - | keys <;>
    simp only [purgeFileModel, hm]
  rw [foldPurgeVar_get]

theorem purgeFileModel_fk_get (s : IndexerState) (file f : String) :
    mapGet (purgeFileModel s file).functionKeysByFile f =
      if f = file then none else mapGet s.functionKeysByFile f := by
  rcases hm : mapGet s.functionKeysByFile file with - | keys <;>
    simp only [purgeFileModel, hm]
  · by_cases hf : f = file
    · rw [if_pos hf, hf, hm]
    · rw [if_neg hf]
  · by_cases hf : f = file
    · rw [if_pos hf, hf, mapGet_delete_eq]
    · rw [if_neg hf, mapGet_delete_ne _ _ _ hf]

theorem purgeFileModel_vk_get (s : IndexerState) (file f : String) :
    mapGet (purgeFileModel s file).variableKeysByFile f =
      if f = file then none else mapGet s.variableKeysByFile f := by
  rcases hm : mapGet s.variableKeysByFile file with - | keys <;>
    simp only [purgeFileModel, hm]
  · by_cases hf : f = file
    · rw [if_pos hf, hf, hm]
    · rw [if_neg hf]
  · by_cases hf : f = file
    · rw [if_pos hf, hf, mapGet_delete_eq]
    · rw [if_neg hf, mapGet_delete_ne _ _ _ hf]

theorem purgeVarTransform_some {file : String}
    {o : Option (List VariableEntry)} {arr : List VariableEntry}
    (h : purgeVarTransform file o = some arr) :
    ∃ arr0, o = some arr0 ∧
      arr = arr0.filter (fun (e : VariableEntry) => e.file ≠ file) := by
  rcases o with - | arr0
  · simp [purgeVarTransform] at h
  · rw [purgeVarTransform] at h
    by_cases hemp :
        (arr0.filter (fun (e : VariableEntry) => e.file ≠ file)).isEmpty
    · rw [if_pos hemp] at h
      cases h
    · rw [if_neg hemp] at h
      injection h with h
      exact ⟨arr0, rfl, h.symm⟩

theorem purgeFileModel_funCoverage {s : IndexerState} (h : funCoverage s)
    (file : String) : funCoverage (purgeFileModel s file) := by
  intro k fi hget f hf
  rw [purgeFileModel_fc_get] at hget
  rw [purgeFileModel_fk_get]
  rcases hm : mapGet s.functionKeysByFile file with - | keys <;>
    simp only [hm] at hget
  · by_cases hf2 : f = file
    · have := h k fi hget f hf
      rw [hf2, hm] at this
      simp at this
    · rw [if_neg hf2]
      exact h k fi hget f hf
  · by_cases hk : k ∈ keys
    · rw [if_pos hk] at hget
      cases hget
    · rw [if_neg hk] at hget
      by_cases hf2 : f = file
      · have := h k fi hget f hf
        rw [hf2, hm] at this
        simp only [Option.getD_some] at this
        exact absurd this hk
      · rw [if_neg hf2]
        exact h k fi hget f hf

theorem purgeFileModel_varCoverage {s : IndexerState} (h : varCoverage s)
    (file : String) : varCoverage (purgeFileModel s file) := by
  intro k arr hget x hx
  rw [purgeFileModel_vc_get] at hget
  rw [purgeFileModel_vk_get]
  rcases hm : mapGet s.variableKeysByFile file with - | keys <;>
    simp only [hm] at hget
  · by_cases hf2 : x.file = file
    · have := h k arr hget x hx
      rw [hf2, hm] at this
      simp at this
    · rw [if_neg hf2]
      exact h k arr hget x hx
  · by_cases hk : k ∈ keys
    · rw [if_pos hk] at hget
      rcases purgeVarTransform_some hget with ⟨arr0, harr0, hfil⟩
      subst hfil
      have hx2 := List.mem_filter.1 hx
      have hxf : x.file ≠ file := by simpa using hx2.2
      rw [if_neg hxf]
      exact h k arr0 harr0 x hx2.1
    · rw [if_neg hk] at hget
      by_cases hf2 : x.file = file
      · have := h k arr hget x hx
        rw [hf2, hm] at this
        simp only [Option.getD_some] at this
        exact absurd this hk
      · rw [if_neg hf2]
        exact h k arr hget x hx

theorem purgeFileModel_domainsAligned {s : IndexerState} (h : domainsAligned s)
    (file : String) : domainsAligned (purgeFileModel s file) := by
  intro f
  rw [purgeFileModel_frbf, purgeFileModel_isp]
  by_cases hf : f = file
  · rw [hf, mapGet_delete_eq, mapGet_delete_eq]
    exact Iff.rfl
  · rw [mapGet_delete_ne _ _ _ hf, mapGet_delete_ne _ _ _ hf]
    exact h f

theorem purgeFileModel_consistent {s : IndexerState} (h : TablesConsistent s)
    (file : String) : TablesConsistent (purgeFileModel s file) :=
  ⟨purgeFileModel_funCoverage h.1 file,
   purgeFileModel_varCoverage h.2.1 file,
   purgeFileModel_domainsAligned h.2.2 file⟩

theorem emptyIndexer_consistent : TablesConsistent emptyIndexer := by
  refine ⟨?_, ?_, ?_⟩
  · intro k fi hget
    simp [mapGet, emptyIndexer] at hget
  · intro k arr hget
    simp [mapGet, emptyIndexer] at hget
  · intro f
    exact Iff.rfl

theorem addVar_consistent {st : IndexerState} (h : TablesConsistent st)
    (n : String) (e : VariableEntry) : TablesConsistent (addVar st n e) :=
  ⟨addVar_funCoverage h.1 n e, addVar_varCoverage h.2.1 n e,
   addVar_domainsAligned h.2.2 n e⟩

theorem indexFileModel_consistent {s : IndexerState} (h : TablesConsistent s)
    (file : String) (sp : List (Nat × Nat)) (fns : List FunctionRange)
    (dv : List VariableEntry) :
    TablesConsistent (indexFileModel s file sp fns dv) := by
  refine foldG_pres TablesConsistent _
    (fun st v hv => addVar_consistent hv v.name v) _ _ ?_
  refine foldG_pres TablesConsistent _
    (fun st f hf => indexOneFunction_consistent hf file f) _ _ ?_
  have h1 := purgeFileModel_consistent h file
  refine ⟨h1.1, h1.2.1, ?_⟩
  intro f
  show (mapGet (mapSet (purgeFileModel s file).functionRangesByFile file fns)
      f).isSome ↔
    (mapGet (mapSet (purgeFileModel s file).ignoreSpansByFile file sp)
      f).isSome
  by_cases hf : f = file
  · rw [hf, mapGet_set_eq, mapGet_set_eq]
    exact Iff.rfl
  · rw [mapGet_set_ne _ _ _ _ hf, mapGet_set_ne _ _ _ _ hf]
    exact h1.2.2 f

theorem indexFileModel_ranges (s : IndexerState) (file : String)
    (sp : List (Nat × Nat)) (fns : List FunctionRange)
    (dv : List VariableEntry) :
    mapGet (indexFileModel s file sp fns dv).functionRangesByFile file =
      some fns := by
  have h1 : (indexFileModel s file sp fns dv).functionRangesByFile =
      mapSet (mapDelete s.functionRangesByFile file) file fns := by
    refine Eq.trans (foldG_functionRangesByFile _
      (fun st v => addVar_functionRangesByFile _ _ _) _ _) ?_
    refine Eq.trans (foldG_functionRangesByFile _
      (fun st f => indexOneFunction_frbf _ _ _) _ _) ?_
    rfl
  rw [h1, mapGet_set_eq]

theorem indexFileModel_spans (s : IndexerState) (file : String)
    (sp : List (Nat × Nat)) (fns : List FunctionRange)
    (dv : List VariableEntry) :
    mapGet (indexFileModel s file sp fns dv).ignoreSpansByFile file =
      some sp := by
  have h1 : (indexFileModel s file sp fns dv).ignoreSpansByFile =
      mapSet (mapDelete s.ignoreSpansByFile file) file sp := by
    refine Eq.trans (foldG_ignoreSpansByFile _
      (fun st v => addVar_ignoreSpansByFile _ _ _) _ _) ?_
    refine Eq.trans (foldG_ignoreSpansByFile _
      (fun st f => indexOneFunction_isp _ _ _) _ _) ?_
    rfl
  rw [h1, mapGet_set_eq]

theorem indexOneFunction_keeps (file : String) (st : IndexerState)
    (f : FunctionRange) (k : String)
    (h : ∃ fi, mapGet st.functionCache k = some fi ∧ fi.file = some file) :
    ∃ fi, mapGet (indexOneFunction file st f).functionCache k = some fi ∧
      fi.file = some file := by
  rcases h with ⟨fi, hget, hfile⟩
  by_cases hk : k = jsToLower f.name
  · exact ⟨funInfoOf file f, by rw [indexOneFunction_fc_get, if_pos hk], rfl⟩
  · exact ⟨fi, by rw [indexOneFunction_fc_get, if_neg hk]; exact hget, hfile⟩

theorem foldIndexOne_covers (file : String) :
    ∀ (l : List FunctionRange) (fr : FunctionRange), fr ∈ l →
      ∀ st : IndexerState,
        ∃ fi, mapGet ((l.foldl (indexOneFunction file) st)).functionCache
            (jsToLower fr.name) = some fi ∧ fi.file = some file
  | [], fr, hfr, _ => absurd hfr (List.not_mem_nil fr)
  | u :: tl, fr, hfr, st => by
    rw [List.foldl_cons]
    rcases List.mem_cons.1 hfr with h | h
    · subst h
      refine foldG_pres
        (fun s2 => ∃ fi, mapGet s2.functionCache (jsToLower fr.name) =
          some fi ∧ fi.file = some file) _
        (fun s2 g hg => indexOneFunction_keeps file s2 g _ hg) tl _ ?_
      exact ⟨funInfoOf file fr, by rw [indexOneFunction_fc_get, if_pos rfl],
        rfl⟩
    · exact foldIndexOne_covers file tl fr h _

theorem indexFileModel_functions (s : IndexerState) (file : String)
    (sp : List (Nat × Nat)) (fns : List FunctionRange)
    (dv : List VariableEntry) (fr : FunctionRange) (hfr : fr ∈ fns) :
    ∃ fi, mapGet (indexFileModel s file sp fns dv).functionCache
        (jsToLower fr.name) = some fi ∧ fi.file = some file := by
  have h1 : (indexFileModel s file sp fns dv).functionCache =
      (fns.foldl (indexOneFunction file)
        ({ { purgeFileModel s file with
              ignoreSpansByFile :=
                mapSet (purgeFileModel s file).ignoreSpansByFile file sp } with
            functionRangesByFile :=
              mapSet (purgeFileModel s file).functionRangesByFile file
                fns } : IndexerState)).functionCache :=
    foldG_functionCache _ (fun st v => addVar_functionCache _ _ _) _ _
  rw [h1]
  exact foldIndexOne_covers file fns fr hfr _

theorem indexFileModel_declVars (s : IndexerState) (file : String)
    (sp : List (Nat × Nat)) (fns : List FunctionRange)
    (dv : List VariableEntry) (v : VariableEntry) (hv : v ∈ dv) :
    v ∈ (mapGet (indexFileModel s file sp fns dv).variableCache
      (jsToLower v.name)).getD [] :=
  foldDeclVars_mem dv v hv _

theorem mapGet_map {α : Type} (g : String × α → String × α) (h : α → α)
    (hg : ∀ p, g p = (p.1, h p.2)) :
    ∀ (m : List (String × α)) (k : String),
      mapGet (m.map g) k = (mapGet m k).map h
  | [], _ => rfl
  | p :: tl, k => by
    rw [List.map_cons, hg p]
    by_cases hk : p.1 = k
    · have h1 : mapGet ((p.1, h p.2) :: List.map g tl) k = some (h p.2) :=
        mapGet_cons_pos hk
      have h2 : mapGet (p :: tl) k = some p.2 := mapGet_cons_pos hk
      rw [h1, h2]
      rfl
    · have h1 : mapGet ((p.1, h p.2) :: List.map g tl) k =
          mapGet (List.map g tl) k := mapGet_cons_neg hk
      have h2 : mapGet (p :: tl) k = mapGet tl k := mapGet_cons_neg hk
      rw [h1, h2, mapGet_map g h hg tl k]

theorem moveFileModel_fc_get (s : IndexerState) (oldPath newPath k : String) :
    mapGet (moveFileModel s oldPath newPath).functionCache k =
      (mapGet s.functionCache k).map (fiMove oldPath newPath) :=
  mapGet_map _ (fiMove oldPath newPath) (fun _ => rfl) _ _

theorem moveFileModel_vc_get (s : IndexerState) (oldPath newPath k : String) :
    mapGet (moveFileModel s oldPath newPath).variableCache k =
      (mapGet s.variableCache k).map (List.map (veMove oldPath newPath)) :=
  mapGet_map _ (List.map (veMove oldPath newPath)) (fun _ => rfl) _ _

theorem moveFileModel_frbf (s : IndexerState) (oldPath newPath : String) :
    (moveFileModel s oldPath newPath).functionRangesByFile =
      (if (mapGet s.functionRangesByFile oldPath).isSome then
        mapDelete (mapSet s.functionRangesByFile newPath
          ((mapGet s.functionRangesByFile oldPath).getD [])) oldPath
      else s.functionRangesByFile) := rfl

theorem moveFileModel_isp (s : IndexerState) (oldPath newPath : String) :
    (moveFileModel s oldPath newPath).ignoreSpansByFile =
      (if (mapGet s.ignoreSpansByFile oldPath).isSome then
        mapDelete (mapSet s.ignoreSpansByFile newPath
          ((mapGet s.ignoreSpansByFile oldPath).getD [])) oldPath
      else s.ignoreSpansByFile) := rfl

theorem moveFileModel_fk (s : IndexerState) (oldPath newPath : String) :
    (moveFileModel s oldPath newPath).functionKeysByFile =
      (if (mapGet s.functionKeysByFile oldPath).isSome then
        mapDelete (mapSet s.functionKeysByFile newPath
          ((mapGet s.functionKeysByFile oldPath).getD [])) oldPath
      else s.functionKeysByFile) := rfl

theorem moveFileModel_vk (s : IndexerState) (oldPath newPath : String) :
    (moveFileModel s oldPath newPath).variableKeysByFile =
      (if (mapGet s.variableKeysByFile oldPath).isSome then
        mapDelete (mapSet s.variableKeysByFile newPath
          ((mapGet s.variableKeysByFile oldPath).getD [])) oldPath
      else s.variableKeysByFile) := rfl

theorem moveFileModel_funCoverage {s : IndexerState} (oldPath newPath : String)
    (hne : oldPath ≠ newPath)
    (hfk : mapGet s.functionKeysByFile newPath = none)
    (h : funCoverage s) : funCoverage (moveFileModel s oldPath newPath) := by
  intro k fi' hget f hf
  rw [moveFileModel_fc_get] at hget
  rcases hm : mapGet s.functionCache k with - | fi
  · rw [hm] at hget
    cases hget
  · rw [hm] at hget
    have hget2 : some (fiMove oldPath newPath fi) = some fi' := hget
    injection hget2 with hget2
    subst hget2
    rw [moveFileModel_fk]
    by_cases hold : fi.file = some oldPath
    · rw [fiMove, if_pos hold] at hf
      have hfn : f = newPath := by
        simpa using hf.symm
      subst hfn
      have hkeys := h k fi hm oldPath (by simpa using hold)
      have hsome : (mapGet s.functionKeysByFile oldPath).isSome = true := by
        rcases hq : mapGet s.functionKeysByFile oldPath with - | keys
        · rw [hq] at hkeys
          simp at hkeys
        · rfl
      rw [if_pos hsome, mapGet_delete_ne _ _ _ (Ne.symm hne), mapGet_set_eq]
      exact hkeys
    · rw [fiMove, if_neg hold] at hf
      have hkeys := h k fi hm f hf
      have hfo : f ≠ oldPath := fun he => hold (he ▸ hf)
      have hfn : f ≠ newPath := by
        intro he
        rw [he, hfk] at hkeys
        simp at hkeys
      split
      · rw [mapGet_delete_ne _ _ _ hfo, mapGet_set_ne _ _ _ _ hfn]
        exact hkeys
      · exact hkeys

theorem moveFileModel_varCoverage {s : IndexerState} (oldPath newPath : String)
    (hne : oldPath ≠ newPath)
    (hvk : mapGet s.variableKeysByFile newPath = none)
    (h : varCoverage s) : varCoverage (moveFileModel s oldPath newPath) := by
  intro k arr' hget x' hx'
  rw [moveFileModel_vc_get] at hget
  rcases hm : mapGet s.variableCache k with - | arr
  · rw [hm] at hget
    cases hget
  · rw [hm] at hget
    have hget2 : some (arr.map (veMove oldPath newPath)) = some arr' := hget
    injection hget2 with hget2
    subst hget2
    rcases List.mem_map.1 hx' with ⟨x, hx, hxx⟩
    subst hxx
    rw [moveFileModel_vk]
    by_cases hold : x.file = oldPath
    · have hxf : (veMove oldPath newPath x).file = newPath := by
        rw [veMove, if_pos hold]
      rw [hxf]
      have hkeys := h k arr hm x hx
      rw [hold] at hkeys
      have hsome : (mapGet s.variableKeysByFile oldPath).isSome = true := by
        rcases hq : mapGet s.variableKeysByFile oldPath with - | keys
        · rw [hq] at hkeys
          simp at hkeys
        · rfl
      rw [if_pos hsome, mapGet_delete_ne _ _ _ (Ne.symm hne), mapGet_set_eq]
      exact hkeys
    · have hxf : (veMove oldPath newPath x).file = x.file := by
        rw [veMove, if_neg hold]
      rw [hxf]
      have hkeys := h k arr hm x hx
      have hfn : x.file ≠ newPath := by
        intro he
        rw [he, hvk] at hkeys
        simp at hkeys
      split
      · rw [mapGet_delete_ne _ _ _ hold, mapGet_set_ne _ _ _ _ hfn]
        exact hkeys
      · exact hkeys

theorem moveFileModel_domainsAligned {s : IndexerState}
    (oldPath newPath : String) (h : domainsAligned s) :
    domainsAligned (moveFileModel s oldPath newPath) := by
  intro f
  rw [moveFileModel_frbf, moveFileModel_isp]
  by_cases ho : (mapGet s.functionRangesByFile oldPath).isSome = true
  · have ho2 : (mapGet s.ignoreSpansByFile oldPath).isSome = true :=
      (h oldPath).1 ho
    rw [if_pos ho, if_pos ho2]
    by_cases hf : f = oldPath
    · rw [hf, mapGet_delete_eq, mapGet_delete_eq]
      exact Iff.rfl
    · rw [mapGet_delete_ne _ _ _ hf, mapGet_delete_ne _ _ _ hf]
      by_cases hfn : f = newPath
      · rw [hfn, mapGet_set_eq, mapGet_set_eq]
        exact Iff.rfl
      · rw [mapGet_set_ne _ _ _ _ hfn, mapGet_set_ne _ _ _ _ hfn]
        exact h f
  · have ho2 : ¬ (mapGet s.ignoreSpansByFile oldPath).isSome = true :=
      fun hh => ho ((h oldPath).2 hh)
    rw [if_neg ho, if_neg ho2]
    exact h f

theorem moveFileModel_consistent {s : IndexerState} (oldPath newPath : String)
    (hne : oldPath ≠ newPath)
    (hfk : mapGet s.functionKeysByFile newPath = none)
    (hvk : mapGet s.variableKeysByFile newPath = none)
    (h : TablesConsistent s) :
    TablesConsistent (moveFileModel s oldPath newPath) :=
  ⟨moveFileModel_funCoverage oldPath newPath hne hfk h.1,
   moveFileModel_varCoverage oldPath newPath hne hvk h.2.1,
   moveFileModel_domainsAligned oldPath newPath h.2.2⟩

theorem buildAllModel_fresh_consistent (builtins : List (String × FunctionInfo))
    (files : List (String × List (Nat × Nat) × List FunctionRange ×
      List VariableEntry)) :
    TablesConsistent (buildAllModel emptyIndexer builtins files) := by
  refine foldG_pres TablesConsistent _
    (fun st f hf => indexFileModel_consistent hf f.1 f.2.1 f.2.2.1 f.2.2.2)
    _ _ ?_
  refine foldG_pres TablesConsistent _ (fun st kv hc => ?_) _ _ ?_
  · refine ⟨?_, hc.2.1, hc.2.2⟩
    intro k fi hget f hf
    have hget2 : mapGet (mapSet st.functionCache kv.1
        ({ kv.2 with location := none, file := none, bodyRange := none } :
          FunctionInfo)) k = some fi := hget
    by_cases hk : k = kv.1
    · rw [hk, mapGet_set_eq] at hget2
      injection hget2 with hget2
      subst hget2
      exact Option.noConfusion hf
    · rw [mapGet_set_ne _ _ _ _ hk] at hget2
      exact hc.1 k fi hget2 f hf
  · exact emptyIndexer_consistent

/-! ## Claim theorems for the span utilities and scanners -/

/-- C1: variable resolution follows the scope-preference order.  With `cand`
the candidate list stored under the lowercased name: (a) if the enclosing
function yields a scope id matched by some local candidate, the result is a
local entry with that scope id; (b) otherwise, if a module candidate for the
current file exists, the result is such a module entry; (c) otherwise, if a
global candidate exists, the result is a global entry; (d) otherwise the
first remaining candidate is returned.  The three scenarios of the claim
(inside `F` → local, module-level of the same file → module, different
file → global) are instances, exhibited in the witness. -/
theorem C1_resolveVariableAt_scope_preference
    (s : IndexerState) (file : String) (off : Nat) (name : String)
    (cand : List VariableEntry)
    (hcand : mapGet s.variableCache (jsToLower name) = some cand) :
    ((∃ d, (findEnclosingFunction s file off).map
        (fun fr => localScopeId file fr.name) = some d ∧
        ∃ v ∈ cand, v.scopeType = "local" ∧ v.scopeId = d) →
      ∃ w, resolveVariableAt s file off name = some w ∧
        w.scopeType = "local" ∧
        (findEnclosingFunction s file off).map
          (fun fr => localScopeId file fr.name) = some w.scopeId) ∧
    ((∀ d, (findEnclosingFunction s file off).map
        (fun fr => localScopeId file fr.name) = some d →
        ∀ v ∈ cand, ¬(v.scopeType = "local" ∧ v.scopeId = d)) →
      (∃ v ∈ cand, v.scopeType = "module" ∧ v.scopeId = file) →
      ∃ w, resolveVariableAt s file off name = some w ∧
        w.scopeType = "module" ∧ w.scopeId = file) ∧
    ((∀ d, (findEnclosingFunction s file off).map
        (fun fr => localScopeId file fr.name) = some d →
        ∀ v ∈ cand, ¬(v.scopeType = "local" ∧ v.scopeId = d)) →
      (∀ v ∈ cand, ¬(v.scopeType = "module" ∧ v.scopeId = file)) →
      (∃ v ∈ cand, v.scopeType = "global") →
      ∃ w, resolveVariableAt s file off name = some w ∧
        w.scopeType = "global") ∧
    ((∀ d, (findEnclosingFunction s file off).map
        (fun fr => localScopeId file fr.name) = some d →
        ∀ v ∈ cand, ¬(v.scopeType = "local" ∧ v.scopeId = d)) →
      (∀ v ∈ cand, ¬(v.scopeType = "module" ∧ v.scopeId = file)) →
      (∀ v ∈ cand, v.scopeType ≠ "global") →
      resolveVariableAt s file off name = cand.head?) := by
  have hlocal : ∀ encl : FunctionRange,
      findEnclosingFunction s file off = some encl →
      (∀ d, (findEnclosingFunction s file off).map
        (fun fr => localScopeId file fr.name) = some d →
        ∀ v ∈ cand, ¬(v.scopeType = "local" ∧ v.scopeId = d)) →
      cand.find? (fun (v : VariableEntry) =>
        decide (v.scopeType = "local") &&
          decide (v.scopeId = localScopeId file encl.name)) = none := by
    intro encl hencl hno
    rw [List.find?_eq_none]
    intro v hv
    have := hno (localScopeId file encl.name) (by rw [hencl]; rfl) v hv
    simp only [Bool.and_eq_true, decide_eq_true_eq]
    exact fun hc => this hc
  refine ⟨?_, ?_, ?_, ?_⟩
  · rintro ⟨d, hd, v, hvmem, hvl, hvs⟩
    have hemp : cand.isEmpty = false :=
      List.isEmpty_eq_false.2 (List.ne_nil_of_mem hvmem)
    rcases hencl : findEnclosingFunction s file off with - | encl
    · rw [hencl] at hd; cases hd
    · rw [hencl] at hd
      have hd' : d = localScopeId file encl.name := by
        simpa using hd.symm
      subst hd'
      have hfind : (cand.find? (fun (v : VariableEntry) =>
          decide (v.scopeType = "local") &&
            decide (v.scopeId = localScopeId file encl.name))).isSome := by
        rw [List.find?_isSome]
        exact ⟨v, hvmem, by simp [hvl, hvs]⟩
      obtain ⟨w, hw⟩ := Option.isSome_iff_exists.1 hfind
      have hpw := List.find?_some hw
      rw [Bool.and_eq_true, decide_eq_true_eq, decide_eq_true_eq] at hpw
      refine ⟨w, ?_, hpw.1, by simp [hpw.2]⟩
      simp only [resolveVariableAt, hcand, hemp, Bool.false_eq_true, if_false,
        hencl, hw]
  · rintro hno ⟨v, hvmem, hvm, hvs⟩
    have hemp : cand.isEmpty = false :=
      List.isEmpty_eq_false.2 (List.ne_nil_of_mem hvmem)
    have hfind : (cand.find? (fun (v : VariableEntry) =>
        decide (v.scopeType = "module") && decide (v.scopeId = file))).isSome := by
      rw [List.find?_isSome]
      exact ⟨v, hvmem, by simp [hvm, hvs]⟩
    obtain ⟨w, hw⟩ := Option.isSome_iff_exists.1 hfind
    have hpw := List.find?_some hw
    rw [Bool.and_eq_true, decide_eq_true_eq, decide_eq_true_eq] at hpw
    refine ⟨w, ?_, hpw.1, hpw.2⟩
    rcases hencl : findEnclosingFunction s file off with - | encl
    · simp only [resolveVariableAt, hcand, hemp, Bool.false_eq_true, if_false,
        hencl, hw]
    · simp only [resolveVariableAt, hcand, hemp, Bool.false_eq_true, if_false,
        hencl, hlocal encl hencl hno, hw]
  · rintro hno hnomod ⟨v, hvmem, hvg⟩
    have hemp : cand.isEmpty = false :=
      List.isEmpty_eq_false.2 (List.ne_nil_of_mem hvmem)
    have hmodnone : cand.find? (fun (v : VariableEntry) =>
        decide (v.scopeType = "module") && decide (v.scopeId = file)) = none := by
      rw [List.find?_eq_none]
      intro x hx
      simp only [Bool.and_eq_true, decide_eq_true_eq]
      exact fun hc => hnomod x hx hc
    have hfind : (cand.find? (fun (v : VariableEntry) =>
        decide (v.scopeType = "global"))).isSome := by
      rw [List.find?_isSome]
      exact ⟨v, hvmem, by simp [hvg]⟩
    obtain ⟨w, hw⟩ := Option.isSome_iff_exists.1 hfind
    have hpw := List.find?_some hw
    rw [decide_eq_true_eq] at hpw
    refine ⟨w, ?_, hpw⟩
    rcases hencl : findEnclosingFunction s file off with - | encl
    · simp only [resolveVariableAt, hcand, hemp, Bool.false_eq_true, if_false,
        hencl, hmodnone, hw]
    · simp only [resolveVariableAt, hcand, hemp, Bool.false_eq_true, if_false,
        hencl, hlocal encl hencl hno, hmodnone, hw]
  · intro hno hnomod hnoglob
    rcases hcand_nil : cand with - | ⟨c0, crest⟩
    · simp [resolveVariableAt, hcand, hcand_nil]
    · rw [← hcand_nil]
      have hemp : cand.isEmpty = false :=
        List.isEmpty_eq_false.2 (by rw [hcand_nil]; exact List.cons_ne_nil _ _)
      have hmodnone : cand.find? (fun (v : VariableEntry) =>
          decide (v.scopeType = "module") && decide (v.scopeId = file)) = none := by
        rw [List.find?_eq_none]
        intro x hx
        simp only [Bool.and_eq_true, decide_eq_true_eq]
        exact fun hc => hnomod x hx hc
      have hglobnone : cand.find? (fun (v : VariableEntry) =>
          decide (v.scopeType = "global")) = none := by
        rw [List.find?_eq_none]
        intro x hx
        simp only [decide_eq_true_eq]
        exact hnoglob x hx
      rcases hencl : findEnclosingFunction s file off with - | encl
      · simp only [resolveVariableAt, hcand, hemp, Bool.false_eq_true, if_false,
          hencl, hmodnone, hglobnone]
      · simp only [resolveVariableAt, hcand, hemp, Bool.false_eq_true, if_false,
          hencl, hlocal encl hencl hno, hmodnone, hglobnone]

/-- Witness for C1: a corpus with a local `x` in function `F` of file `P`
(whose body range is `[10, 40)`), a module `x` in `P`, and a global `x`.
Resolving from offset 20 (inside `F`) yields a local entry scoped to `F`;
from offset 5 (module level of `P`) a module entry; from file `Q` a global
entry. -/
theorem C1_resolveVariableAt_scope_preference_witness :
    (∃ w, resolveVariableAt c1DemoState "P" 20 "x" = some w ∧
      w.scopeType = "local") ∧
    (∃ w, resolveVariableAt c1DemoState "P" 5 "x" = some w ∧
      w.scopeType = "module" ∧ w.scopeId = "P") ∧
    (∃ w, resolveVariableAt c1DemoState "Q" 20 "x" = some w ∧
      w.scopeType = "global") := by
  refine ⟨?_, ?_, ?_⟩
  · obtain ⟨w, h1, h2, -⟩ :=
      (C1_resolveVariableAt_scope_preference c1DemoState "P" 20 "x" c1Cand
          (by decide)).1
        ⟨localScopeId "P" "F", rfl,
         ⟨"x", "INT", "local", localScopeId "P" "F", 20, "P", some (14, 40), false⟩,
         by decide, rfl, rfl⟩
    exact ⟨w, h1, h2⟩
  · obtain ⟨w, h1, h2, h3⟩ :=
      (C1_resolveVariableAt_scope_preference c1DemoState "P" 5 "x" c1Cand
          (by decide)).2.1
        (fun d hd => nomatch hd)
        ⟨⟨"x", "INT", "module", "P", 2, "P", none, false⟩, by decide, rfl, rfl⟩
    exact ⟨w, h1, h2, h3⟩
  · obtain ⟨w, h1, h2⟩ :=
      (C1_resolveVariableAt_scope_preference c1DemoState "Q" 20 "x" c1Cand
          (by decide)).2.2.1
        (fun d hd => nomatch hd)
        (by decide)
        ⟨⟨"x", "INT", "global", "global", 3, "R", none, false⟩, by decide, rfl⟩
    exact ⟨w, h1, h2⟩

/-- C2: the body-extent scan (nest counter seeded at 1, block keywords
tracked with word boundaries, ignore-span aware) never crosses the next
function header's start `maxSearchEnd`, and either the body extends exactly
to that bound (no closer found before it or end of file), or it ends exactly
at the end offset `p + 3` of a closing `end` keyword that lies outside every
ignore span — so block keywords inside string literals or comments (covered
by the ignore spans) never affect the nest counter — and, when the bound is
a following header (whose first character is the `f` of `function`),
strictly before that header's start. -/
theorem C2_functionBodyEnd_correct (text : List Char)
    (ignoreCS : List (Nat × Nat)) (bodyStart maxSearchEnd : Nat)
    (hf : maxSearchEnd = text.length ∨
      (maxSearchEnd < text.length ∧
        (charAt text maxSearchEnd = 'f' ∨ charAt text maxSearchEnd = 'F'))) :
    functionBodyEnd text ignoreCS bodyStart maxSearchEnd ≤ maxSearchEnd ∧
    (functionBodyEnd text ignoreCS bodyStart maxSearchEnd = maxSearchEnd ∨
      ∃ p, bodyStart ≤ p ∧ p < maxSearchEnd ∧ kwAt text p = some Kw.kEnd ∧
        inSpan p ignoreCS = false ∧
        functionBodyEnd text ignoreCS bodyStart maxSearchEnd = p + 3 ∧
        (maxSearchEnd < text.length →
          functionBodyEnd text ignoreCS bodyStart maxSearchEnd < maxSearchEnd)) := by
  have h := bodyScanGo_spec text ignoreCS maxSearchEnd hf (text.length + 1)
    bodyStart 1
  refine ⟨h.1, ?_⟩
  rcases h.2 with h2 | ⟨q, hq1, hq2, hq3, hq4, hq5, hq6⟩
  · exact Or.inl h2
  · refine Or.inr ⟨q, hq1, hq2, hq3, hq4, hq5, fun hlt => ?_⟩
    rw [functionBodyEnd, hq5]
    exact hq6 hlt

/-- Witness for C2 on a two-function file whose first body nests an `IF`
block and contains the keyword `end` inside a string literal (covered by the
ignore span `[27, 32)`): the computed body end is 40 — the end offset of the
first function's own closing `end` at 37 — strictly before the second
header at 41. -/
theorem C2_functionBodyEnd_correct_witness :
    functionBodyEnd
        "function f()\nif x then\ny = \"end\"\nend\nend\nfunction g()".toList
        [(27, 32)] 12 41 ≤ 41 ∧
    functionBodyEnd
        "function f()\nif x then\ny = \"end\"\nend\nend\nfunction g()".toList
        [(27, 32)] 12 41 = 40 :=
  ⟨(C2_functionBodyEnd_correct
      "function f()\nif x then\ny = \"end\"\nend\nend\nfunction g()".toList
      [(27, 32)] 12 41 (Or.inr (by refine ⟨by decide, Or.inl (by decide)⟩))).1,
   by decide⟩

/-- C3 counterexample: the purge is not frame-preserving.  Files `A` and
`B` both completed indexing and both define a function named `Foo`
(`c3State`); before the purge the function table maps `"foo"` to `B`'s
record (last write wins), but purging `A` deletes the key `"foo"`
unconditionally — via `A`'s reverse-index set, without checking the owning
file — so `B`'s contribution is destroyed. -/
theorem C3_purge_frame_counterexample :
    (∃ fi, mapGet c3State.functionCache "foo" = some fi ∧
      fi.file = some "B") ∧
    mapGet (purgeFileModel c3State "A").functionCache "foo" = none :=
  ⟨⟨funInfoOf "B" c3FrB, by decide, by decide⟩, by decide⟩

/-- C3 (amended): for every consistent state, purging `A` is complete — no
function record owned by `A`, no variable entry of `A`, and no cached
ranges or ignore spans for `A` survive — and it is frame-preserving for the
per-file tables of any other file `B` and for `B`'s variable entries; its
function records are preserved provided none of them sits under a key in
`A`'s reverse-index set (the disjointness that the unconditional key
deletion needs). -/
theorem C3_purge_complete_and_frame (s : IndexerState) (A B : String)
    (h : TablesConsistent s) (hBA : B ≠ A)
    (hdisj : ((mapGet s.functionKeysByFile A).getD []).all
      (fun k => ((mapGet s.functionCache k).map
        (fun fi => decide (fi.file ≠ some B))).getD true) = true) :
    (∀ k fi, mapGet (purgeFileModel s A).functionCache k = some fi →
      fi.file ≠ some A) ∧
    (∀ k arr, mapGet (purgeFileModel s A).variableCache k = some arr →
      ∀ e ∈ arr, e.file ≠ A) ∧
    mapGet (purgeFileModel s A).functionRangesByFile A = none ∧
    mapGet (purgeFileModel s A).ignoreSpansByFile A = none ∧
    mapGet (purgeFileModel s A).functionRangesByFile B =
      mapGet s.functionRangesByFile B ∧
    mapGet (purgeFileModel s A).ignoreSpansByFile B =
      mapGet s.ignoreSpansByFile B ∧
    (∀ k fi, mapGet s.functionCache k = some fi → fi.file = some B →
      mapGet (purgeFileModel s A).functionCache k = some fi) ∧
    (∀ k arr, mapGet s.variableCache k = some arr →
      ∀ e ∈ arr, e.file = B →
        e ∈ (mapGet (purgeFileModel s A).variableCache k).getD []) := by
  refine ⟨?_, ?_, ?_, ?_, ?_, ?_, ?_, ?_⟩
  · intro k fi hget hfA
    rw [purgeFileModel_fc_get] at hget
    rcases hm : mapGet s.functionKeysByFile A with - | keys <;>
      simp only [hm] at hget
    · have hcov := h.1 k fi hget A hfA
      rw [hm] at hcov
      simp at hcov
    · by_cases hk : k ∈ keys
      · rw [if_pos hk] at hget
        cases hget
      · rw [if_neg hk] at hget
        have hcov := h.1 k fi hget A hfA
        rw [hm] at hcov
        simp only [Option.getD_some] at hcov
        exact hk hcov
  · intro k arr hget e he
    rw [purgeFileModel_vc_get] at hget
    rcases hm : mapGet s.variableKeysByFile A with - | keys <;>
      simp only [hm] at hget
    · intro hef
      have hcov := h.2.1 k arr hget e he
      rw [hef, hm] at hcov
      simp at hcov
    · by_cases hk : k ∈ keys
      · rw [if_pos hk] at hget
        rcases purgeVarTransform_some hget with ⟨arr0, -, hfil⟩
        subst hfil
        have h2 := List.mem_filter.1 he
        simpa using h2.2
      · rw [if_neg hk] at hget
        intro hef
        have hcov := h.2.1 k arr hget e he
        rw [hef, hm] at hcov
        simp only [Option.getD_some] at hcov
        exact hk hcov
  · rw [purgeFileModel_frbf, mapGet_delete_eq]
  · rw [purgeFileModel_isp, mapGet_delete_eq]
  · rw [purgeFileModel_frbf, mapGet_delete_ne _ _ _ hBA]
  · rw [purgeFileModel_isp, mapGet_delete_ne _ _ _ hBA]
  · intro k fi hget hfB
    rw [purgeFileModel_fc_get]
    rcases hm : mapGet s.functionKeysByFile A with - | keys <;> simp only [hm]
    · exact hget
    · have hk : k ∉ keys := by
        intro hk
        have hkmem : k ∈ (mapGet s.functionKeysByFile A).getD [] := by
          rw [hm]
          exact hk
        have hall := List.all_eq_true.1 hdisj k hkmem
        rw [hget] at hall
        exact absurd hfB (of_decide_eq_true hall)
      rw [if_neg hk]
      exact hget
  · intro k arr hget e he hefB
    rw [purgeFileModel_vc_get]
    rcases hm : mapGet s.variableKeysByFile A with - | keys <;> simp only [hm]
    · rw [hget]
      exact he
    · by_cases hk : k ∈ keys
      · rw [if_pos hk, hget]
        have hne : e.file ≠ A := by
          rw [hefB]
          exact hBA
        have hmem : e ∈ arr.filter (fun (x : VariableEntry) => x.file ≠ A) :=
          List.mem_filter.2 ⟨he, by simpa using hne⟩
        have hnemp : (arr.filter
            (fun (x : VariableEntry) => x.file ≠ A)).isEmpty = false :=
          List.isEmpty_eq_false.2 (List.ne_nil_of_mem hmem)
        simp only [purgeVarTransform]
        rw [if_neg (show ¬ (arr.filter
            (fun (x : VariableEntry) => x.file ≠ A)).isEmpty = true by
          rw [hnemp]
          exact Bool.false_ne_true)]
        exact hmem
      · rw [if_neg hk, hget]
        exact he

/-- C3 witness: files `A` (function `Foo`) and `B` (function `Bar`) indexed
on a fresh indexer satisfy the invariant and the key-disjointness side
condition, so purging `A` there is complete and frame-preserving. -/
theorem C3_purge_complete_and_frame_witness :
    TablesConsistent c3StateOk ∧
    ("B" : String) ≠ "A" ∧
    (((mapGet c3StateOk.functionKeysByFile "A").getD []).all
      (fun k => ((mapGet c3StateOk.functionCache k).map
        (fun fi => decide (fi.file ≠ some "B"))).getD true) = true) ∧
    ((∀ k fi, mapGet (purgeFileModel c3StateOk "A").functionCache k =
        some fi → fi.file ≠ some "A") ∧
      (∀ k arr, mapGet (purgeFileModel c3StateOk "A").variableCache k =
        some arr → ∀ e ∈ arr, e.file ≠ "A") ∧
      mapGet (purgeFileModel c3StateOk "A").functionRangesByFile "A" =
        none ∧
      mapGet (purgeFileModel c3StateOk "A").ignoreSpansByFile "A" = none ∧
      mapGet (purgeFileModel c3StateOk "A").functionRangesByFile "B" =
        mapGet c3StateOk.functionRangesByFile "B" ∧
      mapGet (purgeFileModel c3StateOk "A").ignoreSpansByFile "B" =
        mapGet c3StateOk.ignoreSpansByFile "B" ∧
      (∀ k fi, mapGet c3StateOk.functionCache k = some fi →
        fi.file = some "B" →
        mapGet (purgeFileModel c3StateOk "A").functionCache k = some fi) ∧
      (∀ k arr, mapGet c3StateOk.variableCache k = some arr →
        ∀ e ∈ arr, e.file = "B" →
          e ∈ (mapGet (purgeFileModel c3StateOk "A").variableCache
            k).getD [])) := by
  have hc : TablesConsistent c3StateOk :=
    indexFileModel_consistent
      (indexFileModel_consistent emptyIndexer_consistent "A" [] [c3FrA] [])
      "B" [] [⟨"Bar", "REAL", "", 0, 9, 14, 22⟩] []
  exact ⟨hc, by decide, by decide,
    C3_purge_complete_and_frame c3StateOk "A" "B" hc (by decide) (by decide)⟩

/-- C4 counterexample: four-table consistency is not an invariant of
`buildAll`.  Rebuilding over an indexer that had previously indexed file
`A` (with one cached ignore span) clears the function, variable and
function-range tables but not the ignore-span cache, leaving `A`
contributing to `_ignoreSpansByFile` and to no other table. -/
theorem C4_buildAll_counterexample :
    mapGet c4State.ignoreSpansByFile "A" = some [(0, 5)] ∧
    mapGet c4State.functionRangesByFile "A" = none ∧
    ¬ TablesConsistent c4State := by
  refine ⟨by decide, by decide, fun h => ?_⟩
  have h1 : (mapGet c4State.ignoreSpansByFile "A").isSome = true := by decide
  have h2 := (h.2.2 "A").2 h1
  have h3 : mapGet c4State.functionRangesByFile "A" = none := by decide
  rw [h3] at h2
  cases h2

/-- C4 (amended): the four-table mutual-consistency invariant — reverse
indexes cover both caches, and the ranges and span tables are populated for
the same files — holds for the fresh indexer and is preserved by
`_indexFile` (which additionally installs the file's full contribution:
its ranges, spans, one function record per extracted function owned by the
file, and every scanned declaration), by `_purgeFile` (which empties the
file's per-file tables), by `_moveFile` onto a destination absent from
both reverse indexes, and by `buildAll` run on a fresh indexer.  On a
non-fresh indexer `buildAll` violates the invariant (see the
counterexample), so the claim's `every operation' fails. -/
theorem C4_tables_consistency (s : IndexerState)
    (file oldPath newPath : String) (sp : List (Nat × Nat))
    (fns : List FunctionRange) (dv : List VariableEntry)
    (builtins : List (String × FunctionInfo))
    (files : List (String × List (Nat × Nat) × List FunctionRange ×
      List VariableEntry))
    (h : TablesConsistent s) (hmv : oldPath ≠ newPath)
    (hfk : mapGet s.functionKeysByFile newPath = none)
    (hvk : mapGet s.variableKeysByFile newPath = none) :
    TablesConsistent emptyIndexer ∧
    TablesConsistent (indexFileModel s file sp fns dv) ∧
    mapGet (indexFileModel s file sp fns dv).functionRangesByFile file =
      some fns ∧
    mapGet (indexFileModel s file sp fns dv).ignoreSpansByFile file =
      some sp ∧
    (∀ fr ∈ fns, ∃ fi,
      mapGet (indexFileModel s file sp fns dv).functionCache
        (jsToLower fr.name) = some fi ∧ fi.file = some file) ∧
    (∀ v ∈ dv, v ∈ (mapGet (indexFileModel s file sp fns dv).variableCache
      (jsToLower v.name)).getD []) ∧
    TablesConsistent (purgeFileModel s file) ∧
    mapGet (purgeFileModel s file).functionRangesByFile file = none ∧
    mapGet (purgeFileModel s file).ignoreSpansByFile file = none ∧
    TablesConsistent (moveFileModel s oldPath newPath) ∧
    TablesConsistent (buildAllModel emptyIndexer builtins files) := by
  refine ⟨emptyIndexer_consistent,
    indexFileModel_consistent h file sp fns dv,
    indexFileModel_ranges s file sp fns dv,
    indexFileModel_spans s file sp fns dv,
    fun fr hfr => indexFileModel_functions s file sp fns dv fr hfr,
    fun v hv => indexFileModel_declVars s file sp fns dv v hv,
    purgeFileModel_consistent h file,
    ?_, ?_,
    moveFileModel_consistent oldPath newPath hmv hfk hvk h,
    buildAllModel_fresh_consistent builtins files⟩
  · rw [purgeFileModel_frbf, mapGet_delete_eq]
  · rw [purgeFileModel_isp, mapGet_delete_eq]

/-- C4 witness: a fresh indexer that indexed file `A` (one span, one
function with two parameters, one scanned module variable) satisfies the
invariant; indexing `B`, purging `B`, moving `A` to the unindexed `C` and
a fresh `buildAll` all preserve it, with `_indexFile`'s contribution
present in full. -/
theorem C4_tables_consistency_witness :
    TablesConsistent c4WitState ∧ ("A" : String) ≠ "C" ∧
    mapGet c4WitState.functionKeysByFile "C" = none ∧
    mapGet c4WitState.variableKeysByFile "C" = none ∧
    (TablesConsistent emptyIndexer ∧
      TablesConsistent (indexFileModel c4WitState "B" [(2, 4)] [c4Fr]
        [c4Var]) ∧
      mapGet (indexFileModel c4WitState "B" [(2, 4)] [c4Fr]
        [c4Var]).functionRangesByFile "B" = some [c4Fr] ∧
      mapGet (indexFileModel c4WitState "B" [(2, 4)] [c4Fr]
        [c4Var]).ignoreSpansByFile "B" = some [(2, 4)] ∧
      (∀ fr ∈ [c4Fr], ∃ fi,
        mapGet (indexFileModel c4WitState "B" [(2, 4)] [c4Fr]
          [c4Var]).functionCache (jsToLower fr.name) = some fi ∧
        fi.file = some "B") ∧
      (∀ v ∈ [c4Var], v ∈ (mapGet (indexFileModel c4WitState "B" [(2, 4)]
        [c4Fr] [c4Var]).variableCache (jsToLower v.name)).getD []) ∧
      TablesConsistent (purgeFileModel c4WitState "B") ∧
      mapGet (purgeFileModel c4WitState "B").functionRangesByFile "B" =
        none ∧
      mapGet (purgeFileModel c4WitState "B").ignoreSpansByFile "B" = none ∧
      TablesConsistent (moveFileModel c4WitState "A" "C") ∧
      TablesConsistent (buildAllModel emptyIndexer [] [])) := by
  have hc : TablesConsistent c4WitState :=
    indexFileModel_consistent emptyIndexer_consistent "A" [(0, 5)] [c4Fr]
      [c4Var]
  exact ⟨hc, by decide, by decide, by decide,
    C4_tables_consistency c4WitState "B" "A" "C" [(2, 4)] [c4Fr] [c4Var]
      [] [] hc (by decide) (by decide) (by decide)⟩

/-- C5: `countArgsTopLevel` over the interior of a parenthesized argument
list returns 0 for the empty list `()`, 1 for `(x)`, 2 for `(x, y)`, and 1
for `(f(x, y))` (a comma at nesting depth > 0 never increments the count);
a comma inside a string literal, as in `("a,b")`, does not increase the
count; whitespace-only segments between top-level commas contribute 0
(shown by `(x, )` counting 1 and `( , )` counting 0). -/
theorem C5_countArgsTopLevel_boundary_cases :
    countArgsTopLevel "".toList 0 0 [] = 0 ∧
    countArgsTopLevel "x".toList 0 1 [] = 1 ∧
    countArgsTopLevel "x, y".toList 0 4 [] = 2 ∧
    countArgsTopLevel "f(x, y)".toList 0 7 [] = 1 ∧
    countArgsTopLevel "\"a,b\"".toList 0 5 [] = 1 ∧
    countArgsTopLevel "x, ".toList 0 3 [] = 1 ∧
    countArgsTopLevel " , ".toList 0 3 [] = 0 :=
  ⟨rfl, rfl, rfl, rfl, rfl, rfl, rfl⟩

/-- C6: `findMatchingParen` equals the first position at which the running
depth of active (outside-string, non-ignored) parens reaches zero —
the offset of the corresponding closing parenthesis of a balanced text —
and returns the sentinel `-1` exactly when there is no such position
(never throwing: the function is total); every candidate position is a
genuine `')'` outside the ignore spans and within the text. -/
theorem C6_findMatchingParen_correct (text : List Char) (openPos : Nat)
    (ignore : List (Nat × Nat)) :
    (findMatchingParen text openPos ignore =
      match closeHits text ignore text.length (openPos + 1) false false false 1 with
      | [] => -1
      | p :: _ => Int.ofNat p) ∧
    (closeHits text ignore text.length (openPos + 1) false false false 1 = [] →
      findMatchingParen text openPos ignore = -1) ∧
    (∀ p ∈ closeHits text ignore text.length (openPos + 1) false false false 1,
      charAt text p = ')' ∧ advancePastIgnored p ignore = p ∧
        p < text.length ∧ openPos < p) := by
  refine ⟨fmpGo_eq_closeHits text ignore _ _ _ _ _ _, ?_, ?_⟩
  · intro h
    rw [findMatchingParen, fmpGo_eq_closeHits, h]
  · intro p hp
    have h := closeHits_mem text ignore _ _ _ _ _ _ p hp
    exact ⟨h.1, h.2.1, h.2.2.1, by omega⟩

/-- Witness for C6 at concrete inputs: the balanced `"(a(b))"` (with a
nested pair) matches at offset 5, which holds a `')'`; the unbalanced
`"(("` yields the sentinel `-1`. -/
theorem C6_findMatchingParen_correct_witness :
    findMatchingParen "(a(b))".toList 0 [] = 5 ∧
    charAt "(a(b))".toList 5 = ')' ∧
    findMatchingParen "((".toList 0 [] = -1 := by
  have h1 := (C6_findMatchingParen_correct "(a(b))".toList 0 []).1
  have h2 := (C6_findMatchingParen_correct "(a(b))".toList 0 []).2.2 5 (by decide)
  have h3 := (C6_findMatchingParen_correct "((".toList 0 []).2.1 (by decide)
  exact ⟨h1.trans (by decide), h2.1, h3⟩

/-- C7: for a merged span list (sorted, pairwise separated, proper spans —
the shape `mergeSpans` produces), `advancePastIgnored` returns the end `e`
of the span `[s, e)` containing `pos`, and returns `pos` unchanged when no
span contains it. -/
theorem C7_advancePastIgnored_correct (pos : Nat) (spans : List (Nat × Nat))
    (hm : mergedSpans spans) :
    (∀ sp ∈ spans, sp.1 ≤ pos → pos < sp.2 →
      advancePastIgnored pos spans = sp.2) ∧
    ((∀ sp ∈ spans, ¬(sp.1 ≤ pos ∧ pos < sp.2)) →
      advancePastIgnored pos spans = pos) :=
  ⟨fun _ hsp h1 h2 => advancePastIgnored_inside hm hsp h1 h2,
   fun h => advancePastIgnored_outside hm h⟩

/-- Witness for C7 at a concrete merged list: position 7 inside `[6, 9)` is
advanced to 9, position 5 outside every span is returned unchanged. -/
theorem C7_advancePastIgnored_correct_witness :
    advancePastIgnored 7 [(2, 4), (6, 9)] = 9 ∧
    advancePastIgnored 5 [(2, 4), (6, 9)] = 5 := by
  have hm : mergedSpans [(2, 4), (6, 9)] := by
    refine ⟨by decide, ?_, ?_⟩ <;>
      simp [startsSorted, spansSeparated, List.chain'_cons]
  exact ⟨(C7_advancePastIgnored_correct 7 _ hm).1 (6, 9) (by decide) (by decide)
      (by decide),
    (C7_advancePastIgnored_correct 5 _ hm).2 (by decide)⟩

/-- C8: `mergeSpans` is idempotent, and its output is always sorted by start
with pairwise non-overlapping (indeed separated) spans; on genuine (proper)
intervals the output is a fully merged span list. -/
theorem C8_mergeSpans_idempotent (S : List (Nat × Nat)) :
    mergeSpans (mergeSpans S) = mergeSpans S ∧
    startsSorted (mergeSpans S) ∧ spansSeparated (mergeSpans S) ∧
    ((∀ sp ∈ S, sp.1 < sp.2) → mergedSpans (mergeSpans S)) :=
  ⟨mergeSpans_idem S, mergeSpans_sorted S, mergeSpans_separated S,
   fun h => ⟨mergeSpans_proper h, mergeSpans_sorted S, mergeSpans_separated S⟩⟩

/-- Witness for C8 on a concrete list with overlapping and adjacent spans. -/
theorem C8_mergeSpans_idempotent_witness :
    mergeSpans (mergeSpans [(5, 7), (0, 3), (3, 4), (1, 2)]) =
      mergeSpans [(5, 7), (0, 3), (3, 4), (1, 2)] ∧
    mergedSpans (mergeSpans [(5, 7), (0, 3), (3, 4), (1, 2)]) :=
  ⟨(C8_mergeSpans_idempotent [(5, 7), (0, 3), (3, 4), (1, 2)]).1,
   (C8_mergeSpans_idempotent [(5, 7), (0, 3), (3, 4), (1, 2)]).2.2.2 (by decide)⟩

/-- C9 counterexample: the two scanners disagree in two independent ways.
First, they use different escape characters inside string literals (`'^'`
in `countArgsTopLevel`, `'\'` in `sliceTopLevelArgSpans`): on the argument
text `"^",x` the Cicode-escaped quote keeps `countArgsTopLevel` inside the
string across the comma, while `sliceTopLevelArgSpans` closes the string
and splits — count 1, two spans.  Second, they treat ignored spans
differently even with no escape character in sight: jumping an ignored
span sets `sawToken` in `countArgsTopLevel`, so the segment counts, while
`sliceTopLevelArgSpans` trims the raw slice and discards a
whitespace-only run — on `   ,x` with the merged ignore list `[(0, 3)]`
covering the three spaces, the count is 2 but only one span is produced. -/
theorem C9_count_ne_slice_counterexample :
    (countArgsTopLevel "\"^\",x".toList 0 5 [] = 1 ∧
      (sliceTopLevelArgSpans "\"^\",x".toList 0 5 []).length = 2) ∧
    (countArgsTopLevel "   ,x".toList 0 5 [(0, 3)] = 2 ∧
      (sliceTopLevelArgSpans "   ,x".toList 0 5 [(0, 3)]).length = 1) :=
  ⟨⟨rfl, rfl⟩, ⟨rfl, rfl⟩⟩

/-- C9 (amended): `sliceTopLevelArgSpans` performs the same top-level comma
splitting as `countArgsTopLevel` — the number of produced spans equals the
count — for every in-bounds interval over a text containing neither of the
two escape characters `'^'` and `'\'`, scanned with an empty ignore list.
Both restrictions are forced by the counterexample: the escape-character
divergence forces the character condition, and the ignored-span divergence
(`sawToken` set by a jump versus the whitespace-trim discard) forces the
empty ignore list. -/
theorem C9_count_eq_slice_length (text : List Char) (startAbs endAbs : Nat)
    (hend : endAbs ≤ text.length)
    (hchars : ∀ j, j < endAbs → charAt text j ≠ '^' ∧ charAt text j ≠ '\\') :
    countArgsTopLevel text startAbs endAbs [] =
      (sliceTopLevelArgSpans text startAbs endAbs []).length := by
  obtain ⟨k, hc, hs⟩ := countGo_sliceGo_rel text endAbs hend hchars
    (endAbs + 1) startAbs 0 false false false none 0 []
    ⟨Or.inl ⟨rfl, rfl⟩, by simp⟩
  rw [countArgsTopLevel, sliceTopLevelArgSpans, hc, hs]
  simp

/-- Witness for the amended C9 on the argument text `a, "b,c", d`: both
scanners see three top-level arguments. -/
theorem C9_count_eq_slice_length_witness :
    countArgsTopLevel "a, \"b,c\", d".toList 0 11 [] =
      (sliceTopLevelArgSpans "a, \"b,c\", d".toList 0 11 []).length ∧
    countArgsTopLevel "a, \"b,c\", d".toList 0 11 [] = 3 :=
  ⟨C9_count_eq_slice_length "a, \"b,c\", d".toList 0 11 (by decide)
      (by decide),
   rfl⟩

/-- C10: `inSpan` returns `true` iff some span `[s, e)` contains `pos`,
provided the list is sorted by start; sortedness is a genuine precondition:
the unsorted list `[(10, 20), (0, 9)]` contains 5 in its second span, yet
`inSpan` returns `false` (the early exit on `pos < s` skips it), and that
list is indeed not sorted by start. -/
theorem C10_inSpan_correct (pos : Nat) (spans : List (Nat × Nat)) :
    (startsSorted spans →
      (inSpan pos spans = true ↔ ∃ sp ∈ spans, sp.1 ≤ pos ∧ pos < sp.2)) ∧
    (inSpan 5 [(10, 20), (0, 9)] = false ∧
      ((0, 9) ∈ [((10 : Nat), (20 : Nat)), (0, 9)] ∧ (0 : Nat) ≤ 5 ∧ (5 : Nat) < 9) ∧
      ¬ startsSorted [((10 : Nat), (20 : Nat)), (0, 9)]) := by
  refine ⟨fun hs => inSpan_iff_of_sorted hs, rfl, ⟨by decide, by decide, by decide⟩, ?_⟩
  intro h
  rw [startsSorted] at h
  have := (List.chain'_cons.1 h).1
  omega

/-- Witness for C10: on the sorted list `[(2, 4)]`, membership of 3 follows
from the equivalence. -/
theorem C10_inSpan_correct_witness : inSpan 3 [(2, 4)] = true :=
  ((C10_inSpan_correct 3 [(2, 4)]).1 (by simp [startsSorted])).2
    ⟨(2, 4), by decide, by decide, by decide⟩

end Cicode
